import Mathlib

/-!
Verification of the royalty-report engine of `backendcfoworx`.

This file shallowly embeds the two extraction/calculation modules
(`services/payment_summary_generator.py` and `generate_royalty_report.py`)
over exact rational arithmetic (`ℚ` in place of Python floats, with Python's
`round(x, 2)` modelled as round-half-to-even at cent precision), and proves
the stated properties of the tiered royalty calculator, the capped national
brand fund fee, the category-totals extractors, and the category-structure
merger.
-/

set_option maxHeartbeats 1000000

namespace Cfoworx

/-! ### Rounding

Python's `round(x, 2)` rounds to the nearest multiple of 0.01, resolving
ties to the even cent (banker's rounding). -/

/-- Round a rational to the nearest integer, ties to even. -/
def roundHalfEven (q : ℚ) : ℤ :=
  if q - (⌊q⌋ : ℚ) < 1/2 then ⌊q⌋
  else if (1/2 : ℚ) < q - (⌊q⌋ : ℚ) then ⌊q⌋ + 1
  else if ⌊q⌋ % 2 = 0 then ⌊q⌋ else ⌊q⌋ + 1

/-- `round(x, 2)`: round to the nearest cent, ties to even. -/
def round2 (q : ℚ) : ℚ := (roundHalfEven (q * 100) : ℚ) / 100

theorem roundHalfEven_le_ceil (q : ℚ) : roundHalfEven q ≤ ⌊q⌋ + 1 := by
  unfold roundHalfEven
  split_ifs <;> omega

theorem roundHalfEven_le_of_lt (q : ℚ) (n : ℤ) (h : q < (n : ℚ)) :
    roundHalfEven q ≤ n := by
  have hf : ⌊q⌋ < n := Int.floor_lt.mpr (by exact_mod_cast h)
  have := roundHalfEven_le_ceil q
  omega

theorem roundHalfEven_of_lt_half {q : ℚ} {n : ℤ} (h1 : (n : ℚ) ≤ q)
    (h2 : q < (n : ℚ) + 1/2) : roundHalfEven q = n := by
  have hfl : ⌊q⌋ = n := Int.floor_eq_iff.mpr ⟨h1, by push_cast; linarith⟩
  unfold roundHalfEven
  rw [hfl, if_pos (by linarith)]

theorem roundHalfEven_of_gt_half {q : ℚ} {n : ℤ} (h1 : (n : ℚ) + 1/2 < q)
    (h2 : q < (n : ℚ) + 1) : roundHalfEven q = n + 1 := by
  have hfl : ⌊q⌋ = n := Int.floor_eq_iff.mpr ⟨by linarith, by push_cast; linarith⟩
  unfold roundHalfEven
  rw [hfl, if_neg (by simp only [not_lt]; linarith), if_pos (by linarith)]

/-- Evaluate `round2` when the scaled value rounds down. -/
theorem round2_eq_down (q : ℚ) (n : ℤ) (h1 : (n : ℚ) ≤ q * 100)
    (h2 : q * 100 < (n : ℚ) + 1/2) : round2 q = (n : ℚ) / 100 := by
  unfold round2
  rw [roundHalfEven_of_lt_half h1 h2]

/-- Evaluate `round2` when the scaled value rounds up. -/
theorem round2_eq_up (q : ℚ) (n : ℤ) (h1 : (n : ℚ) + 1/2 < q * 100)
    (h2 : q * 100 < (n : ℚ) + 1) : round2 q = ((n : ℚ) + 1) / 100 := by
  unfold round2
  rw [roundHalfEven_of_gt_half h1 h2]
  push_cast
  ring

/-! ### Royalty calculation constants (`payment_summary_generator.py`) -/

/-- One row of `STANDARD_RATE_TIERS`.  `max := none` stands for the
source's `float('inf')`; `threshold := none` marks the flat-rate tiers that
have no `"threshold"` key. -/
structure Tier where
  min : ℚ
  max : Option ℚ
  rate : ℚ
  fixed : ℚ
  threshold : Option ℚ
  fixed_fee : ℚ
deriving DecidableEq

def STANDARD_RATE_TIERS : List Tier :=
  [ ⟨0, some 12849.99, 0.10, 0, none, 45⟩,
    ⟨12850, some 21416.99, 0.09, 0, none, 65⟩,
    ⟨21417, some 32124.99, 0.08, 0, none, 85⟩,
    ⟨32125, some 42832.99, 0.075, 0, none, 95⟩,
    ⟨42833, some 74956.99, 0.07, 0, none, 115⟩,
    ⟨74957, some 107082.99, 0.065, 5247.00, some 74956.99, 115⟩,
    ⟨107083, some 160623.99, 0.06, 7335.00, some 107082.99, 115⟩,
    ⟨160624, some 214164.99, 0.055, 10547.00, some 160623.99, 115⟩,
    ⟨214165, none, 0.05, 13492.00, some 214164.99, 115⟩ ]

def MINIMUM_ROYALTY : ℚ := 145.00

def REDUCED_RATE_THRESHOLD : ℚ := 32124.99
def REDUCED_RATE_BELOW : ℚ := 0.04
def REDUCED_RATE_ABOVE : ℚ := 0.03
def REDUCED_RATE_FIXED : ℚ := 1285.00

def NATIONAL_ACCOUNTS_FEE_RATE : ℚ := 0.005
def NATIONAL_BRAND_FUND_RATE : ℚ := 0.025
def NATIONAL_BRAND_FUND_REDUCED_RATE : ℚ := 0.0025

/-! ### Standard rate royalty -/

/-- Numeric part of the dict returned by `calculate_standard_rate_royalty`
(the `description` / `tier_description` strings are presentational and
omitted). -/
structure StdRoyaltyResult where
  royalty : ℚ
  fixed_fee : ℚ
  rate : ℚ
  is_minimum : Bool
deriving DecidableEq

/-- `volume <= tier["max"]`, where a missing bound is `float('inf')`. -/
def tierMatches (volume : ℚ) (t : Tier) : Bool :=
  match t.max with
  | none => true
  | some m => decide (volume ≤ m)

/-- The royalty formula of one tier as computed by the source: either
`fixed + (volume - threshold) * rate` or `volume * rate`. -/
def tierRoyaltyRaw (t : Tier) (volume : ℚ) : ℚ :=
  match t.threshold with
  | some th => t.fixed + (volume - th) * t.rate
  | none => volume * t.rate

/-- The `for tier in STANDARD_RATE_TIERS` loop, including the
"should not reach here" fallback result. -/
def stdTierLoop (volume : ℚ) : List Tier → StdRoyaltyResult
  | [] => { royalty := 0, fixed_fee := 115, rate := 0, is_minimum := false }
  | t :: ts =>
    if tierMatches volume t then
      { royalty := round2 (tierRoyaltyRaw t volume), fixed_fee := t.fixed_fee,
        rate := t.rate, is_minimum := false }
    else stdTierLoop volume ts

def calculate_standard_rate_royalty (volume : ℚ) : StdRoyaltyResult :=
  if volume ≤ 0 then
    { royalty := MINIMUM_ROYALTY, fixed_fee := 45, rate := 0, is_minimum := true }
  else stdTierLoop volume STANDARD_RATE_TIERS

/-- The tier formula exactly as the specification words it:
rate × volume for a flat tier, fixed + rate × (volume − threshold) for a
threshold tier. -/
def specTierFormula (t : Tier) (volume : ℚ) : ℚ :=
  match t.threshold with
  | some th => t.fixed + t.rate * (volume - th)
  | none => t.rate * volume

/-- Upper bounds in ascending order (`none` = unbounded, greatest). -/
def tierUpperLe (a b : Tier) : Prop :=
  match a.max, b.max with
  | some x, some y => x ≤ y
  | some _, none => True
  | none, _ => False

theorem stdTierLoop_eq_find (volume : ℚ) (l : List Tier) :
    (∀ t, l.find? (tierMatches volume) = some t →
      stdTierLoop volume l =
        { royalty := round2 (tierRoyaltyRaw t volume), fixed_fee := t.fixed_fee,
          rate := t.rate, is_minimum := false }) := by
  induction l with
  | nil => intro t ht; simp [List.find?] at ht
  | cons hd tl ih =>
    intro t ht
    by_cases h : tierMatches volume hd
    · rw [List.find?_cons_of_pos _ h] at ht
      cases ht
      simp [stdTierLoop, h]
    · rw [List.find?_cons_of_neg _ h] at ht
      simp [stdTierLoop, h]
      exact ih t ht

theorem tierRoyaltyRaw_eq_spec (t : Tier) (v : ℚ) :
    tierRoyaltyRaw t v = specTierFormula t v := by
  unfold tierRoyaltyRaw specTierFormula
  cases t.threshold <;> ring

/-- C1: for positive volume the standard calculator selects the first tier
(in ascending order of inclusive upper bound) whose upper bound is ≥ the
volume, returns that tier's formula (flat `rate·volume` or
`fixed + rate·(volume − threshold)`) rounded to the cent, and that tier's
fixed fee. -/
theorem C1_standard_tier_selection (v : ℚ) (hv : 0 < v) :
    List.Chain' tierUpperLe STANDARD_RATE_TIERS ∧
    ∃ t, STANDARD_RATE_TIERS.find? (tierMatches v) = some t ∧
      (calculate_standard_rate_royalty v).royalty = round2 (specTierFormula t v) ∧
      (calculate_standard_rate_royalty v).fixed_fee = t.fixed_fee := by
  constructor
  · norm_num [STANDARD_RATE_TIERS, List.chain'_cons, tierUpperLe]
  · have hlast : ∃ t ∈ STANDARD_RATE_TIERS, tierMatches v t = true := by
      refine ⟨⟨214165, none, 0.05, 13492.00, some 214164.99, 115⟩, ?_, rfl⟩
      simp [STANDARD_RATE_TIERS]
    have hsome : (STANDARD_RATE_TIERS.find? (tierMatches v)).isSome := by
      rw [List.find?_isSome]
      obtain ⟨t, ht, hm⟩ := hlast
      exact ⟨t, ht, hm⟩
    obtain ⟨t, ht⟩ := Option.isSome_iff_exists.mp hsome
    refine ⟨t, ht, ?_, ?_⟩
    · rw [calculate_standard_rate_royalty, if_neg (not_le.mpr hv),
        stdTierLoop_eq_find v _ t ht, tierRoyaltyRaw_eq_spec]
    · rw [calculate_standard_rate_royalty, if_neg (not_le.mpr hv),
        stdTierLoop_eq_find v _ t ht]

theorem C1_standard_tier_selection_witness :
    (0 : ℚ) < 20000 ∧
    (List.Chain' tierUpperLe STANDARD_RATE_TIERS ∧
    ∃ t, STANDARD_RATE_TIERS.find? (tierMatches 20000) = some t ∧
      (calculate_standard_rate_royalty 20000).royalty = round2 (specTierFormula t 20000) ∧
      (calculate_standard_rate_royalty 20000).fixed_fee = t.fixed_fee) :=
  ⟨by norm_num, C1_standard_tier_selection 20000 (by norm_num)⟩

/-- The first standard tier, fully evaluated: shared by several claims. -/
theorem std_first_tier (v : ℚ) (h0 : 0 < v) (h1 : v ≤ 12849.99) :
    calculate_standard_rate_royalty v =
      { royalty := round2 (v * 0.10), fixed_fee := 45, rate := 0.10, is_minimum := false } := by
  rw [calculate_standard_rate_royalty, if_neg (not_le.mpr h0)]
  simp only [STANDARD_RATE_TIERS, stdTierLoop, tierMatches]
  rw [if_pos (decide_eq_true h1)]
  rfl

/-! ### Reduced rate royalty -/

/-- Numeric part of the dict returned by `calculate_reduced_rate_royalty`
(`description` omitted). -/
structure ReducedRoyaltyResult where
  royalty : ℚ
  excess_amount : ℚ
  rate_applied : ℚ
deriving DecidableEq

def calculate_reduced_rate_royalty (volume : ℚ) : ReducedRoyaltyResult :=
  if volume ≤ 0 then
    { royalty := 0, excess_amount := 0, rate_applied := 0 }
  else if volume ≤ REDUCED_RATE_THRESHOLD then
    { royalty := round2 (volume * REDUCED_RATE_BELOW), excess_amount := 0,
      rate_applied := REDUCED_RATE_BELOW }
  else
    { royalty := round2 (REDUCED_RATE_FIXED + (volume - REDUCED_RATE_THRESHOLD) * REDUCED_RATE_ABOVE),
      excess_amount := round2 (volume - REDUCED_RATE_THRESHOLD),
      rate_applied := REDUCED_RATE_ABOVE }

/-- C4: up to and including the 32124.99 breakpoint a positive reduced-rate
volume pays 4% of volume (rounded to the cent); strictly above it pays the
fixed 1285.00 plus 3% of the excess over the breakpoint. -/
theorem C4_reduced_rate_breakpoint (v : ℚ) :
    (0 < v → v ≤ REDUCED_RATE_THRESHOLD →
      (calculate_reduced_rate_royalty v).royalty = round2 (0.04 * v) ∧
      (calculate_reduced_rate_royalty v).rate_applied = 0.04) ∧
    (REDUCED_RATE_THRESHOLD < v →
      (calculate_reduced_rate_royalty v).royalty =
        round2 (1285.00 + 0.03 * (v - 32124.99)) ∧
      (calculate_reduced_rate_royalty v).rate_applied = 0.03) := by
  constructor
  · intro h0 hth
    rw [calculate_reduced_rate_royalty, if_neg (not_le.mpr h0), if_pos hth]
    refine ⟨?_, rfl⟩
    unfold REDUCED_RATE_BELOW
    rw [mul_comm]
  · intro hth
    have h0 : ¬ v ≤ 0 := by unfold REDUCED_RATE_THRESHOLD at hth; intro h; linarith
    rw [calculate_reduced_rate_royalty, if_neg h0, if_neg (not_le.mpr hth)]
    refine ⟨?_, rfl⟩
    unfold REDUCED_RATE_FIXED REDUCED_RATE_ABOVE REDUCED_RATE_THRESHOLD
    congr 1
    ring

theorem C4_reduced_rate_breakpoint_witness :
    ((0 : ℚ) < 32124.99 ∧ (32124.99 : ℚ) ≤ REDUCED_RATE_THRESHOLD ∧
      (calculate_reduced_rate_royalty 32124.99).royalty = round2 (0.04 * 32124.99) ∧
      (calculate_reduced_rate_royalty 32124.99).rate_applied = 0.04) ∧
    (REDUCED_RATE_THRESHOLD < (32125.00 : ℚ) ∧
      (calculate_reduced_rate_royalty 32125.00).royalty =
        round2 (1285.00 + 0.03 * (32125.00 - 32124.99)) ∧
      (calculate_reduced_rate_royalty 32125.00).rate_applied = 0.03) := by
  have h1 := (C4_reduced_rate_breakpoint 32124.99).1 (by norm_num)
    (by unfold REDUCED_RATE_THRESHOLD; norm_num)
  have h2 := (C4_reduced_rate_breakpoint 32125.00).2
    (by unfold REDUCED_RATE_THRESHOLD; norm_num)
  exact ⟨⟨by norm_num, by unfold REDUCED_RATE_THRESHOLD; norm_num, h1.1, h1.2⟩,
    ⟨by unfold REDUCED_RATE_THRESHOLD; norm_num, h2.1, h2.2⟩⟩

/-- C5: a non-positive volume yields the contractual minimum royalty 145.00
with the lowest tier's fixed fee 45, not zero. -/
theorem C5_minimum_royalty (v : ℚ) (hv : v ≤ 0) :
    (calculate_standard_rate_royalty v).royalty = 145.00 ∧
    (calculate_standard_rate_royalty v).royalty = MINIMUM_ROYALTY ∧
    (calculate_standard_rate_royalty v).fixed_fee = 45 ∧
    (STANDARD_RATE_TIERS.head?.map Tier.fixed_fee) = some 45 ∧
    (calculate_standard_rate_royalty v).is_minimum = true := by
  rw [calculate_standard_rate_royalty, if_pos hv]
  exact ⟨rfl, rfl, rfl, rfl, rfl⟩

theorem C5_minimum_royalty_witness :
    (0 : ℚ) ≤ 0 ∧
    ((calculate_standard_rate_royalty 0).royalty = 145.00 ∧
     (calculate_standard_rate_royalty 0).royalty = MINIMUM_ROYALTY ∧
     (calculate_standard_rate_royalty 0).fixed_fee = 45 ∧
     (STANDARD_RATE_TIERS.head?.map Tier.fixed_fee) = some 45 ∧
     (calculate_standard_rate_royalty 0).is_minimum = true) :=
  ⟨le_refl 0, C5_minimum_royalty 0 (le_refl 0)⟩

/-- C10 counterexample: at volume 1449.99 (strictly between 0 and 1450) the
computed royalty is exactly 145.00 — equal to, not strictly less than, the
minimum royalty, because 10% of 1449.99 = 144.999 rounds up to the cent. -/
theorem C10_cex_royalty_not_lt_minimum :
    (0 : ℚ) < 1449.99 ∧ (1449.99 : ℚ) < 1450 ∧
    (calculate_standard_rate_royalty 1449.99).royalty = 145.00 ∧
    ¬ ((calculate_standard_rate_royalty 1449.99).royalty < MINIMUM_ROYALTY) := by
  have hr : (calculate_standard_rate_royalty 1449.99).royalty = 145.00 := by
    rw [std_first_tier 1449.99 (by norm_num) (by norm_num)]
    show round2 ((1449.99 : ℚ) * 0.10) = 145.00
    rw [round2_eq_up (1449.99 * 0.10) 14499 (by push_cast; norm_num) (by push_cast; norm_num)]
    push_cast
    norm_num
  refine ⟨by norm_num, by norm_num, hr, ?_⟩
  rw [hr]
  exact lt_irrefl _

/-- C10 (amended): for volume strictly between 0 and 1450 the standard
calculator returns 10% of the volume rounded to the cent, which is at most
(not always strictly below) the 145.00 minimum, and the minimum-royalty
branch is not taken. -/
theorem C10_low_volume_below_minimum (v : ℚ) (h0 : 0 < v) (h1 : v < 1450) :
    (calculate_standard_rate_royalty v).royalty = round2 (0.10 * v) ∧
    (calculate_standard_rate_royalty v).royalty ≤ MINIMUM_ROYALTY ∧
    (calculate_standard_rate_royalty v).is_minimum = false := by
  rw [std_first_tier v h0 (by linarith)]
  have hroyal : round2 (v * 0.10) = round2 (0.10 * v) := by rw [mul_comm]
  refine ⟨hroyal, ?_, rfl⟩
  show round2 (v * 0.10) ≤ MINIMUM_ROYALTY
  unfold round2 MINIMUM_ROYALTY
  rw [div_le_iff (by norm_num : (0:ℚ) < 100)]
  have hlt : v * 0.10 * 100 < ((14500 : ℤ) : ℚ) := by push_cast; linarith
  have hle := roundHalfEven_le_of_lt (v * 0.10 * 100) 14500 hlt
  calc ((roundHalfEven (v * 0.10 * 100)) : ℚ) ≤ ((14500 : ℤ) : ℚ) := by exact_mod_cast hle
    _ = 145.00 * 100 := by norm_num

theorem C10_low_volume_below_minimum_witness :
    (0 : ℚ) < 100 ∧ (100 : ℚ) < 1450 ∧
    ((calculate_standard_rate_royalty 100).royalty = round2 (0.10 * 100) ∧
     (calculate_standard_rate_royalty 100).royalty ≤ MINIMUM_ROYALTY ∧
     (calculate_standard_rate_royalty 100).is_minimum = false) :=
  ⟨by norm_num, by norm_num,
    C10_low_volume_below_minimum 100 (by norm_num) (by norm_num)⟩

/-! ### National brand fund fee with annual cap -/

theorem round2_zero : round2 0 = 0 := by
  have h := round2_eq_down 0 0 (by norm_num) (by norm_num)
  simpa using h

/-- `get_national_brand_fund_cap`: tabulated caps for 2017–2025, a fixed
$100,000/year extrapolation after 2025, and the 2017 cap before 2017. -/
def get_national_brand_fund_cap (year : ℤ) : ℚ :=
  if year = 2017 then 800000
  else if year = 2018 then 850000
  else if year = 2019 then 900000
  else if year = 2020 then 950000
  else if year = 2021 then 1050000
  else if year = 2022 then 1150000
  else if year = 2023 then 1250000
  else if year = 2024 then 1350000
  else if year = 2025 then 1450000
  else if 2025 < year then 1450000 + ((year - 2025 : ℤ) : ℚ) * 100000
  else 800000

theorem cap_ge_800000 (year : ℤ) : 800000 ≤ get_national_brand_fund_cap year := by
  unfold get_national_brand_fund_cap
  split_ifs with h1 h2 h3 h4 h5 h6 h7 h8 h9 h10 <;> try norm_num
  have hint : (1 : ℤ) ≤ year - 2025 := by omega
  have hq : (1 : ℚ) ≤ (year : ℚ) - 2025 := by exact_mod_cast hint
  nlinarith

/-- Numeric part of the dict returned by
`calculate_national_brand_fund_fee` (`description` omitted). -/
structure BrandFundResult where
  fee : ℚ
  capped : Bool
  remaining_cap : ℚ
  annual_cap : ℚ
deriving DecidableEq

def calculate_national_brand_fund_fee (standard_rate_this_month standard_rate_ytd_before : ℚ)
    (year : ℤ) : BrandFundResult :=
  if standard_rate_this_month ≤ 0 then
    { fee := 0, capped := false,
      remaining_cap := max 0 (get_national_brand_fund_cap year - standard_rate_ytd_before),
      annual_cap := get_national_brand_fund_cap year }
  else if max 0 (get_national_brand_fund_cap year - standard_rate_ytd_before) ≤ 0 then
    { fee := 0, capped := true, remaining_cap := 0,
      annual_cap := get_national_brand_fund_cap year }
  else
    { fee := round2 (min standard_rate_this_month
        (max 0 (get_national_brand_fund_cap year - standard_rate_ytd_before)) *
        NATIONAL_BRAND_FUND_RATE),
      capped := decide (min standard_rate_this_month
        (max 0 (get_national_brand_fund_cap year - standard_rate_ytd_before)) <
        standard_rate_this_month),
      remaining_cap :=
        if min standard_rate_this_month
            (max 0 (get_national_brand_fund_cap year - standard_rate_ytd_before)) <
            standard_rate_this_month then 0
        else round2 (max 0 (get_national_brand_fund_cap year - standard_rate_ytd_before) -
          min standard_rate_this_month
            (max 0 (get_national_brand_fund_cap year - standard_rate_ytd_before))),
      annual_cap := get_national_brand_fund_cap year }

/-- C2: the brand-fund fee charges the 2.5% rate only on
`min(this-month, max(0, cap − YTD-before))`, flags `capped` exactly when a
positive month volume exceeds the remaining headroom, and at
YTD-before = cap − 100 with month volume 500 charges 2.5% of 100 with
`capped = true` and `remaining_cap = 0`. -/
theorem C2_brand_fund_cap (m y : ℚ) (year : ℤ) (hm : 0 ≤ m) (hy : 0 ≤ y) :
    ((calculate_national_brand_fund_fee m y year).fee =
      round2 (NATIONAL_BRAND_FUND_RATE *
        min m (max 0 (get_national_brand_fund_cap year - y))) ∧
     ((calculate_national_brand_fund_fee m y year).capped = true ↔
      0 < m ∧ max 0 (get_national_brand_fund_cap year - y) < m)) ∧
    calculate_national_brand_fund_fee 500 (get_national_brand_fund_cap year - 100) year =
      { fee := 2.5, capped := true, remaining_cap := 0,
        annual_cap := get_national_brand_fund_cap year } := by
  constructor
  · by_cases hm0 : m ≤ 0
    · have hmz : m = 0 := le_antisymm hm0 hm
      subst hmz
      rw [calculate_national_brand_fund_fee, if_pos (le_refl (0:ℚ))]
      constructor
      · rw [min_eq_left (le_max_left 0 _), mul_zero, round2_zero]
      · simp
    · push_neg at hm0
      by_cases hcap : max 0 (get_national_brand_fund_cap year - y) ≤ 0
      · have hc0 : max 0 (get_national_brand_fund_cap year - y) = 0 :=
          le_antisymm hcap (le_max_left _ _)
        rw [calculate_national_brand_fund_fee, if_neg (not_le.mpr hm0), if_pos hcap]
        constructor
        · rw [hc0, min_eq_right hm, mul_zero, round2_zero]
        · simp only [true_iff]
          exact ⟨hm0, by rw [hc0]; exact hm0⟩
      · rw [calculate_national_brand_fund_fee, if_neg (not_le.mpr hm0), if_neg hcap]
        constructor
        · rw [mul_comm]
        · simp only [decide_eq_true_eq, min_lt_iff, lt_irrefl, false_or]
          exact ⟨fun h => ⟨hm0, h⟩, fun h => h.2⟩
  · have hd : get_national_brand_fund_cap year - (get_national_brand_fund_cap year - 100) =
        (100 : ℚ) := by ring
    have hmax : max (0:ℚ) 100 = 100 := by norm_num
    have hmin : min (500:ℚ) 100 = 100 := by norm_num
    rw [calculate_national_brand_fund_fee, if_neg (by norm_num), hd, hmax,
      if_neg (by norm_num), hmin, if_pos (by norm_num : (100:ℚ) < 500)]
    have hfee : round2 (100 * NATIONAL_BRAND_FUND_RATE) = 2.5 := by
      unfold NATIONAL_BRAND_FUND_RATE
      have h := round2_eq_down (100 * 0.025) 250 (by norm_num) (by norm_num)
      rw [h]
      norm_num
    rw [hfee]
    have hdec : decide ((100:ℚ) < 500) = true := decide_eq_true (by norm_num)
    rw [hdec]

theorem C2_brand_fund_cap_witness :
    (0:ℚ) ≤ 500 ∧ (0:ℚ) ≤ 0 ∧
    ((((calculate_national_brand_fund_fee 500 0 2025).fee =
      round2 (NATIONAL_BRAND_FUND_RATE *
        min 500 (max 0 (get_national_brand_fund_cap 2025 - 0))) ∧
     ((calculate_national_brand_fund_fee 500 0 2025).capped = true ↔
      0 < (500:ℚ) ∧ max 0 (get_national_brand_fund_cap 2025 - 0) < 500)) ∧
    calculate_national_brand_fund_fee 500 (get_national_brand_fund_cap 2025 - 100) 2025 =
      { fee := 2.5, capped := true, remaining_cap := 0,
        annual_cap := get_national_brand_fund_cap 2025 })) :=
  ⟨by norm_num, le_refl 0, C2_brand_fund_cap 500 0 2025 (by norm_num) (le_refl 0)⟩

/-! ### String helpers

Implemented over `List Char` by structural recursion so that concrete
evaluation is available to the kernel.  Python's `str.lower` / `str.strip`
are modelled for the ASCII range, which covers every pattern and label the
source uses. -/

/-- ASCII lower-casing of one character (Python `str.lower`). -/
def charLower (c : Char) : Char :=
  if 65 ≤ c.toNat ∧ c.toNat ≤ 90 then Char.ofNat (c.toNat + 32) else c

def lowerList (cs : List Char) : List Char := cs.map charLower

/-- `listStartsWith s p` : does `s` start with `p`? -/
def listStartsWith : List Char → List Char → Bool
  | _, [] => true
  | [], _ :: _ => false
  | a :: as, b :: bs => if a = b then listStartsWith as bs else false

/-- `p in s` (Python substring containment). -/
def listContainsSub : List Char → List Char → Bool
  | [], pat => pat.isEmpty
  | a :: rest, pat => listStartsWith (a :: rest) pat || listContainsSub rest pat

def strStartsWith (s p : String) : Bool := listStartsWith s.data p.data

def isSpaceChar (c : Char) : Bool := c = ' ' || c = '\t' || c = '\n' || c = '\r'

def trimWSList (cs : List Char) : List Char :=
  ((cs.dropWhile isSpaceChar).reverse.dropWhile isSpaceChar).reverse

/-- Python `str.strip()`. -/
def pyStrip (s : String) : String := String.mk (trimWSList s.data)

/-! ### Python `float(...)` on strings

Modelled for decimal literals: optional surrounding whitespace, optional
sign, digits with an optional fractional part.  (Exponents, `inf`/`nan`
and `_` separators, which the engine's data never uses, parse as `none`.)
A failed parse is the model of Python's `ValueError`. -/

def takeDigits : List Char → Nat → Nat → (Nat × Nat × List Char)
  | [], acc, cnt => (acc, cnt, [])
  | c :: cs, acc, cnt =>
    if 48 ≤ c.toNat ∧ c.toNat ≤ 57 then
      takeDigits cs (acc * 10 + (c.toNat - 48)) (cnt + 1)
    else (acc, cnt, c :: cs)

def sgn (neg : Bool) (q : ℚ) : ℚ := if neg then -q else q

def pyFloatCore (cs : List Char) (neg : Bool) : Option ℚ :=
  match takeDigits cs 0 0 with
  | (ip, ic, r1) =>
    match r1 with
    | [] => if ic = 0 then none else some (sgn neg (ip : ℚ))
    | '.' :: r2 =>
      (match takeDigits r2 0 0 with
       | (fp, fc, r3) =>
         if r3 = [] ∧ 0 < ic + fc then
           if fc = 0 then some (sgn neg (ip : ℚ))
           else some (sgn neg (((ip * 10 ^ fc + fp : ℕ) : ℚ) / ((10 ^ fc : ℕ) : ℚ)))
         else none)
    | _ => none

def pyFloatAux : List Char → Option ℚ
  | '+' :: r => pyFloatCore r false
  | '-' :: r => pyFloatCore r true
  | r => pyFloatCore r false

/-- `float(s)`, returning `none` where Python raises `ValueError`. -/
def pyFloat? (s : String) : Option ℚ := pyFloatAux (trimWSList s.data)

/-! ### `format_currency` (`generate_royalty_report.py`) -/

def removeCommas (cs : List Char) : List Char := cs.filter (fun c => !decide (c = ','))

/-- `format_currency`: `value.replace(',','')` parsed as a float;
empty input and any parse failure coerce to `0.0`. -/
def format_currency (s : String) : ℚ :=
  if s = "" then 0
  else
    match pyFloat? (String.mk (removeCommas s.data)) with
    | some q => q
    | none => 0

/-- C9: `format_currency` is total: empty/blank input gives 0, input that is
not numeric after comma removal gives 0, and a numeric string with thousands
separators gives its comma-stripped value. -/
theorem C9_format_currency_total (s : String) (q : ℚ) :
    (format_currency "" = 0) ∧
    (format_currency " " = 0) ∧
    (pyFloat? (String.mk (removeCommas s.data)) = none → format_currency s = 0) ∧
    (pyFloat? (String.mk (removeCommas s.data)) = some q → format_currency s = q) := by
  refine ⟨rfl, rfl, ?_, ?_⟩
  · intro h
    unfold format_currency
    by_cases hs : s = ""
    · rw [if_pos hs]
    · rw [if_neg hs, h]
  · intro h
    unfold format_currency
    by_cases hs : s = ""
    · exfalso
      subst hs
      rw [show pyFloat? (String.mk (removeCommas "".data)) = none from rfl] at h
      exact Option.noConfusion h
    · rw [if_neg hs, h]

theorem C9_format_currency_total_witness :
    (pyFloat? (String.mk (removeCommas "x2x".data)) = none ∧ format_currency "x2x" = 0) ∧
    (pyFloat? (String.mk (removeCommas "1,234".data)) = some 1234 ∧
      format_currency "1,234" = 1234) :=
  ⟨⟨rfl, (C9_format_currency_total "x2x" 0).2.2.1 rfl⟩,
   ⟨rfl, (C9_format_currency_total "1,234" 1234).2.2.2 rfl⟩⟩

/-! ### Dynamic data extraction from RVCR JSON (`extract_category_totals`) -/

/-- One cell: the `{"value": ...}` objects of `ColData`. -/
structure ColData where
  value : String
deriving DecidableEq

/-- The parts of an RVCR row the extractor reads: its `type`, its `group`,
and its `Summary.ColData` cells. -/
structure RvcrRow where
  rtype : String
  group : String
  summary : List ColData
deriving DecidableEq

/-- The parts of an RVCR report document the extractor reads: the
`Columns.Column[*].ColTitle` titles and the rows. -/
structure RvcrDoc where
  columns : List String
  rows : List RvcrRow
deriving DecidableEq

/-- Insertion-ordered dict assignment: overwrite in place, else append. -/
def dictSet {α : Type} : List (String × α) → String → α → List (String × α)
  | [], k, v => [(k, v)]
  | kv :: rest, k, v => if kv.1 = k then (k, v) :: rest else kv :: dictSet rest k v

def dictGet {α : Type} : List (String × α) → String → Option α
  | [], _ => none
  | kv :: rest, k => if kv.1 = k then some kv.2 else dictGet rest k

/-- `extract_column_mapping`: title ↦ column index, skipping empty titles
(a duplicated title keeps its first position with the later index). -/
def extract_column_mapping (doc : RvcrDoc) : List (String × Nat) :=
  doc.columns.enum.foldl (fun m p => if p.2 = "" then m else dictSet m p.2 p.1) []

/-- Sort key of `find_category_column`: `(0 if title.startswith("Total ")
else 1, index)`, lexicographically. -/
def colSortKeyLe (a b : String × Nat) : Bool :=
  (if strStartsWith a.1 "Total " then (0 : Nat) else 1) <
    (if strStartsWith b.1 "Total " then (0 : Nat) else 1) ||
  ((if strStartsWith a.1 "Total " then (0 : Nat) else 1) =
    (if strStartsWith b.1 "Total " then (0 : Nat) else 1) && a.2 ≤ b.2)

def insertLe {α : Type} (le : α → α → Bool) (x : α) : List α → List α
  | [] => [x]
  | y :: ys => if le x y then x :: y :: ys else y :: insertLe le x ys

def insSortBy {α : Type} (le : α → α → Bool) : List α → List α
  | [] => []
  | x :: xs => insertLe le x (insSortBy le xs)

/-- `re.match(pattern, title, re.IGNORECASE) or title == pattern`.  All the
source's patterns are literal strings, so `re.match` is a case-insensitive
match at the start of the title. -/
def matchesPattern (pattern title : String) : Bool :=
  listStartsWith (lowerList title.data) (lowerList pattern.data) || title = pattern

/-- The `type_filter` tests of `find_category_column` over the lower-cased
title. -/
def passesFilter (typeFilter : Option String) (title : String) : Bool :=
  match typeFilter with
  | none => true
  | some f =>
    if f = "commercial" then listContainsSub (lowerList title.data) "commercial".data
    else if f = "residential" then listContainsSub (lowerList title.data) "residential".data
    else if f = "total" then
      !(listContainsSub (lowerList title.data) "commercial".data ||
        listContainsSub (lowerList title.data) "residential".data)
    else true

def findColLoop (patterns : List String) (typeFilter : Option String) (preferTotal : Bool) :
    List (String × Nat) → Option (Nat × String)
  | [] => none
  | (title, idx) :: rest =>
    if !passesFilter typeFilter title then findColLoop patterns typeFilter preferTotal rest
    else if preferTotal &&
        (typeFilter = some "commercial" || typeFilter = some "residential") &&
        !strStartsWith title "Total " then
      findColLoop patterns typeFilter preferTotal rest
    else if patterns.any (fun p => matchesPattern p title) then some (idx, title)
    else findColLoop patterns typeFilter preferTotal rest

/-- `find_category_column`, with the source's single-level
`prefer_total=False` retry inlined. -/
def find_category_column (colMap : List (String × Nat)) (patterns : List String)
    (typeFilter : Option String) (preferTotal : Bool) : Option (Nat × String) :=
  match findColLoop patterns typeFilter preferTotal (insSortBy colSortKeyLe colMap) with
  | some r => some r
  | none =>
    if preferTotal then findColLoop patterns typeFilter false (insSortBy colSortKeyLe colMap)
    else none

/-- The six RVCR category keys. -/
inductive CatKey where
  | water | fire | mold_bio | other | subcontract | reconstruction
deriving DecidableEq

/-- `CATEGORY_PATTERNS`. -/
def patternsOf : CatKey → List String
  | .water =>
    ["Total Commercial - Water", "Total Residential - Water", "Commercial - Water",
     "Residential - Water", "Total 1 - WATER", "1 - WATER"]
  | .fire =>
    ["Total Commercial - Fire", "Total Residential - Fire", "Commercial - Fire",
     "Residential - Fire", "Total 2 - FIRE", "2 - FIRE"]
  | .mold_bio =>
    ["Total Commercial - Mold/Bio Hazard", "Total Residential - Mold/Bio Hazard",
     "Commercial - Mold/Bio Hazard", "Residential - Mold/Bio Hazard",
     "Total 3 - MOLD/BIO HAZARD", "3 - MOLD/BIO HAZARD"]
  | .other =>
    ["Total Commercial - Other", "Total Residential - Other", "Commercial - Other",
     "Residential - Other", "Total 4 - OTHER", "4 - OTHER"]
  | .subcontract =>
    ["Total Commercial - Subcontract", "Total Residential - Subcontract",
     "Commercial - Subcontract", "Residential - Subcontract",
     "Total 5 - SUBCONTRACT", "5 - SUBCONTRACT"]
  | .reconstruction =>
    ["Total Commercial - Reconstruction", "Total Residential - Reconstruction",
     "Commercial - Reconstruction", "Residential - Reconstruction",
     "Total 6 - RECONSTRUCTION", "6 - RECONSTRUCTION"]

/-- `[p for p in patterns if "Commercial" in p]`. -/
def commercialPatterns (ps : List String) : List String :=
  ps.filter (fun p => listContainsSub p.data "Commercial".data)

def residentialPatterns (ps : List String) : List String :=
  ps.filter (fun p => listContainsSub p.data "Residential".data)

/-- `[p for p in patterns if p.startswith("Total ") and "Commercial" not in p
and "Residential" not in p]`. -/
def totalOnlyPatterns (ps : List String) : List String :=
  ps.filter (fun p => strStartsWith p "Total " &&
    !listContainsSub p.data "Commercial".data && !listContainsSub p.data "Residential".data)

/-- One category's extracted `{"commercial", "residential", "total"}`. -/
structure CatEntry where
  commercial : ℚ
  residential : ℚ
  total : ℚ
deriving DecidableEq

def zeroEntry : CatEntry := ⟨0, 0, 0⟩

structure CategoryTotals where
  water : CatEntry
  fire : CatEntry
  mold_bio : CatEntry
  other : CatEntry
  subcontract : CatEntry
  reconstruction : CatEntry
deriving DecidableEq

def getCat (r : CategoryTotals) : CatKey → CatEntry
  | .water => r.water
  | .fire => r.fire
  | .mold_bio => r.mold_bio
  | .other => r.other
  | .subcontract => r.subcontract
  | .reconstruction => r.reconstruction

/-- The first `Section`/`GrandTotal` row's `Summary.ColData` (empty when
missing — the source treats `None` and `[]` alike). -/
def grandTotalRow (doc : RvcrDoc) : List ColData :=
  match doc.rows.find? (fun r => r.rtype = "Section" && r.group = "GrandTotal") with
  | some r => r.summary
  | none => []

/-- Read one value from the TOTAL row through a pattern search: out-of-range
indices, empty strings and parse failures all leave the initial 0. -/
def catValue (colMap : List (String × Nat)) (totalRow : List ColData)
    (patterns : List String) : ℚ :=
  match find_category_column colMap patterns none true with
  | none => 0
  | some (idx, _) =>
    match totalRow.get? idx with
    | none => 0
    | some cd =>
      match pyFloat? cd.value with
      | some q => q
      | none => 0

/-- One category of `extract_category_totals`: commercial + residential when
either extracted value is positive, else the bare "Total" fallback. -/
def extractCat (colMap : List (String × Nat)) (totalRow : List ColData)
    (ps : List String) : CatEntry :=
  { commercial := catValue colMap totalRow (commercialPatterns ps),
    residential := catValue colMap totalRow (residentialPatterns ps),
    total :=
      if 0 < catValue colMap totalRow (commercialPatterns ps) ∨
         0 < catValue colMap totalRow (residentialPatterns ps) then
        catValue colMap totalRow (commercialPatterns ps) +
          catValue colMap totalRow (residentialPatterns ps)
      else catValue colMap totalRow (totalOnlyPatterns ps) }

def zeroTotals : CategoryTotals :=
  ⟨zeroEntry, zeroEntry, zeroEntry, zeroEntry, zeroEntry, zeroEntry⟩

def extract_category_totals (doc : RvcrDoc) : CategoryTotals :=
  if grandTotalRow doc = [] then zeroTotals
  else
    { water := extractCat (extract_column_mapping doc) (grandTotalRow doc) (patternsOf .water),
      fire := extractCat (extract_column_mapping doc) (grandTotalRow doc) (patternsOf .fire),
      mold_bio := extractCat (extract_column_mapping doc) (grandTotalRow doc) (patternsOf .mold_bio),
      other := extractCat (extract_column_mapping doc) (grandTotalRow doc) (patternsOf .other),
      subcontract := extractCat (extract_column_mapping doc) (grandTotalRow doc) (patternsOf .subcontract),
      reconstruction := extractCat (extract_column_mapping doc) (grandTotalRow doc) (patternsOf .reconstruction) }

/-- A ClassSales document whose Water commercial column holds the value
`"0"` while the bare `Total 1 - WATER` fallback column holds `"7"`. -/
def C8doc : RvcrDoc :=
  { columns := ["Total Commercial - Water", "Total 1 - WATER"],
    rows := [⟨"Section", "GrandTotal", [⟨"0"⟩, ⟨"7"⟩]⟩] }

/-- C8 counterexample: a Water commercial column IS found (value 0), yet the
category total comes from the bare "Total" fallback column (7), not from
commercial + residential (0): the source switches on extracted value > 0,
not on column presence. -/
theorem C8_cex_found_column_value_zero :
    (find_category_column (extract_column_mapping C8doc)
        (commercialPatterns (patternsOf .water)) none true).isSome = true ∧
    (extract_category_totals C8doc).water.commercial = 0 ∧
    (extract_category_totals C8doc).water.residential = 0 ∧
    (extract_category_totals C8doc).water.total = 7 ∧
    (extract_category_totals C8doc).water.total ≠
      (extract_category_totals C8doc).water.commercial +
        (extract_category_totals C8doc).water.residential := by
  have hc : (extract_category_totals C8doc).water.commercial = 0 := rfl
  have hr : (extract_category_totals C8doc).water.residential = 0 := rfl
  have ht : (extract_category_totals C8doc).water.total = 7 := rfl
  refine ⟨rfl, hc, hr, ht, ?_⟩
  rw [hc, hr, ht]
  norm_num

/-- C8 (amended): with no grand-total row every category is zero; the
category total is commercial + residential when either extracted **value**
is strictly positive (not merely when a column is found), else the bare
"Total" fallback value; categories with no matching columns stay zero. -/
theorem C8_extract_category_totals (doc : RvcrDoc) (k : CatKey) :
    (grandTotalRow doc = [] → getCat (extract_category_totals doc) k = zeroEntry) ∧
    ((getCat (extract_category_totals doc) k).total =
      (if 0 < (getCat (extract_category_totals doc) k).commercial ∨
          0 < (getCat (extract_category_totals doc) k).residential then
         (getCat (extract_category_totals doc) k).commercial +
           (getCat (extract_category_totals doc) k).residential
       else if grandTotalRow doc = [] then 0
       else catValue (extract_column_mapping doc) (grandTotalRow doc)
              (totalOnlyPatterns (patternsOf k)))) ∧
    (find_category_column (extract_column_mapping doc)
        (commercialPatterns (patternsOf k)) none true = none →
     find_category_column (extract_column_mapping doc)
        (residentialPatterns (patternsOf k)) none true = none →
     find_category_column (extract_column_mapping doc)
        (totalOnlyPatterns (patternsOf k)) none true = none →
     getCat (extract_category_totals doc) k = zeroEntry) := by
  by_cases hgt : grandTotalRow doc = []
  · refine ⟨fun _ => ?_, ?_, fun _ _ _ => ?_⟩
    · rw [extract_category_totals, if_pos hgt]
      cases k <;> rfl
    · rw [extract_category_totals, if_pos hgt]
      cases k <;> simp [getCat, zeroTotals, zeroEntry, hgt]
    · rw [extract_category_totals, if_pos hgt]
      cases k <;> rfl
  · refine ⟨fun h => absurd h hgt, ?_, fun h1 h2 h3 => ?_⟩
    · rw [extract_category_totals, if_neg hgt]
      cases k <;> (simp only [getCat, extractCat]; rw [if_neg hgt])
    · rw [extract_category_totals, if_neg hgt]
      cases k <;>
        simp only [getCat, extractCat, catValue, h1, h2, h3, lt_irrefl, or_self,
          if_false, zeroEntry]

theorem C8_extract_category_totals_witness :
    grandTotalRow (RvcrDoc.mk [] []) = [] ∧
    getCat (extract_category_totals (RvcrDoc.mk [] [])) CatKey.water = zeroEntry :=
  ⟨rfl, (C8_extract_category_totals (RvcrDoc.mk [] []) CatKey.water).1 rfl⟩

/-! ### Payment summary assembly (`calculate_payment_summary`)

The numeric skeleton of the returned summary.  The per-category
proportional royalty allocations and all description strings are
presentational and omitted; the period default path (header parsing /
`datetime.now()`) is I/O, so the period year is a parameter, as when the
caller passes `period_year` explicitly. -/

structure PaymentSummary where
  standard_rate_this_month : ℚ
  standard_rate_ytd : ℚ
  reduced_rate_this_month : ℚ
  reduced_rate_ytd : ℚ
  total_this_month : ℚ
  total_ytd : ℚ
  standard_royalty : ℚ
  standard_is_minimum : Bool
  reduced_royalty : ℚ
  total_royalty : ℚ
  fixed_fee : ℚ
  national_accounts : ℚ
  national_brand_fund : ℚ
  national_brand_capped : Bool
  national_brand_remaining : ℚ
  national_brand_annual_cap : ℚ
  national_brand_reduced : ℚ
  total_fees : ℚ
  grand_total_payable : ℚ
deriving DecidableEq

def calculate_payment_summary (last_month_data ytd_data : RvcrDoc)
    (period_year : ℤ) : PaymentSummary :=
  let categories := extract_category_totals last_month_data
  let ytd_categories := extract_category_totals ytd_data
  let standard_rate_total := categories.water.total + categories.fire.total +
    categories.mold_bio.total + categories.other.total
  let reduced_rate_total := categories.subcontract.total + categories.reconstruction.total
  let grand_total := standard_rate_total + reduced_rate_total
  let ytd_standard_rate := ytd_categories.water.total + ytd_categories.fire.total +
    ytd_categories.mold_bio.total + ytd_categories.other.total
  let ytd_reduced_rate := ytd_categories.subcontract.total + ytd_categories.reconstruction.total
  let ytd_grand_total := ytd_standard_rate + ytd_reduced_rate
  let ytd_standard_before := max 0 (ytd_standard_rate - standard_rate_total)
  let standard_royalty := calculate_standard_rate_royalty standard_rate_total
  let reduced_royalty := calculate_reduced_rate_royalty reduced_rate_total
  let brand_fund := calculate_national_brand_fund_fee standard_rate_total
    ytd_standard_before period_year
  let national_accounts_fee := round2 (standard_rate_total * NATIONAL_ACCOUNTS_FEE_RATE)
  let national_brand_reduced_fee := round2 (reduced_rate_total * NATIONAL_BRAND_FUND_REDUCED_RATE)
  let total_royalty_payable := standard_royalty.royalty + reduced_royalty.royalty
  let total_fees_payable := standard_royalty.fixed_fee + national_accounts_fee +
    brand_fund.fee + national_brand_reduced_fee
  { standard_rate_this_month := standard_rate_total,
    standard_rate_ytd := ytd_standard_rate,
    reduced_rate_this_month := reduced_rate_total,
    reduced_rate_ytd := ytd_reduced_rate,
    total_this_month := grand_total,
    total_ytd := ytd_grand_total,
    standard_royalty := standard_royalty.royalty,
    standard_is_minimum := standard_royalty.is_minimum,
    reduced_royalty := reduced_royalty.royalty,
    total_royalty := total_royalty_payable,
    fixed_fee := standard_royalty.fixed_fee,
    national_accounts := national_accounts_fee,
    national_brand_fund := brand_fund.fee,
    national_brand_capped := brand_fund.capped,
    national_brand_remaining := brand_fund.remaining_cap,
    national_brand_annual_cap := brand_fund.annual_cap,
    national_brand_reduced := national_brand_reduced_fee,
    total_fees := total_fees_payable,
    grand_total_payable := total_royalty_payable + total_fees_payable }

/-- The extracted category totals of the C3 scenario: Water
Commercial/Residential 10000/2000, Subcontract Commercial 5000, rest 0. -/
def C3_totals : CategoryTotals :=
  { water := ⟨10000, 2000, 12000⟩, fire := zeroEntry, mold_bio := zeroEntry,
    other := zeroEntry, subcontract := ⟨5000, 0, 5000⟩, reconstruction := zeroEntry }

/-- C3: any pair of documents extracting to the C3 scenario totals (this
month and YTD equal) yields standard total 12000 with royalty 1200.00 and
fixed fee 45, reduced total 5000 with royalty 200.00, national-accounts fee
60.00, uncapped brand-fund fee 300.00, reduced brand-fund fee 12.50, total
fees 417.50 and grand total payable 1817.50 — for every period year. -/
theorem C3_end_to_end (d1 d2 : RvcrDoc) (year : ℤ)
    (h1 : extract_category_totals d1 = C3_totals)
    (h2 : extract_category_totals d2 = C3_totals) :
    (calculate_payment_summary d1 d2 year).standard_rate_this_month = 12000 ∧
    (calculate_payment_summary d1 d2 year).standard_royalty = 1200.00 ∧
    (calculate_payment_summary d1 d2 year).fixed_fee = 45 ∧
    (calculate_payment_summary d1 d2 year).reduced_rate_this_month = 5000 ∧
    (calculate_payment_summary d1 d2 year).reduced_royalty = 200.00 ∧
    (calculate_payment_summary d1 d2 year).national_accounts = 60.00 ∧
    (calculate_payment_summary d1 d2 year).national_brand_fund = 300.00 ∧
    (calculate_payment_summary d1 d2 year).national_brand_capped = false ∧
    (calculate_payment_summary d1 d2 year).national_brand_reduced = 12.50 ∧
    (calculate_payment_summary d1 d2 year).total_fees = 417.50 ∧
    (calculate_payment_summary d1 d2 year).grand_total_payable = 1817.50 := by
  have hcap := cap_ge_800000 year
  have estd : calculate_standard_rate_royalty 12000 =
      { royalty := round2 (12000 * 0.10), fixed_fee := 45, rate := 0.10,
        is_minimum := false } :=
    std_first_tier 12000 (by norm_num) (by norm_num)
  have estd2 : round2 ((12000 : ℚ) * 0.10) = 1200 := by
    rw [round2_eq_down (12000 * 0.10) 120000 (by norm_num) (by norm_num)]
    norm_num
  have ered2 : round2 ((5000 : ℚ) * REDUCED_RATE_BELOW) = 200 := by
    unfold REDUCED_RATE_BELOW
    rw [round2_eq_down (5000 * 0.04) 20000 (by norm_num) (by norm_num)]
    norm_num
  have ered : calculate_reduced_rate_royalty 5000 =
      { royalty := 200, excess_amount := 0, rate_applied := REDUCED_RATE_BELOW } := by
    rw [calculate_reduced_rate_royalty, if_neg (by norm_num),
      if_pos (by unfold REDUCED_RATE_THRESHOLD; norm_num), ered2]
  have hmax : max (0:ℚ) (get_national_brand_fund_cap year - 0) =
      get_national_brand_fund_cap year := by
    rw [sub_zero]
    exact max_eq_right (by linarith)
  have hmin : min (12000:ℚ) (get_national_brand_fund_cap year) = 12000 :=
    min_eq_left (by linarith)
  have efee : round2 ((12000 : ℚ) * NATIONAL_BRAND_FUND_RATE) = 300 := by
    unfold NATIONAL_BRAND_FUND_RATE
    rw [round2_eq_down (12000 * 0.025) 30000 (by norm_num) (by norm_num)]
    norm_num
  have ebrand : calculate_national_brand_fund_fee 12000 0 year =
      { fee := 300, capped := false,
        remaining_cap := round2 (get_national_brand_fund_cap year - 12000),
        annual_cap := get_national_brand_fund_cap year } := by
    rw [calculate_national_brand_fund_fee, hmax, if_neg (by norm_num),
      if_neg (not_le.mpr (by linarith : (0:ℚ) < get_national_brand_fund_cap year)),
      hmin, if_neg (lt_irrefl (12000:ℚ)), decide_eq_false (lt_irrefl (12000:ℚ)), efee]
  have eacc : round2 ((12000 : ℚ) * NATIONAL_ACCOUNTS_FEE_RATE) = 60 := by
    unfold NATIONAL_ACCOUNTS_FEE_RATE
    rw [round2_eq_down (12000 * 0.005) 6000 (by norm_num) (by norm_num)]
    norm_num
  have eredb : round2 ((5000 : ℚ) * NATIONAL_BRAND_FUND_REDUCED_RATE) = 12.5 := by
    unfold NATIONAL_BRAND_FUND_REDUCED_RATE
    rw [round2_eq_down (5000 * 0.0025) 1250 (by norm_num) (by norm_num)]
    norm_num
  have hps : calculate_payment_summary d1 d2 year =
      { standard_rate_this_month := 12000, standard_rate_ytd := 12000,
        reduced_rate_this_month := 5000, reduced_rate_ytd := 5000,
        total_this_month := 17000, total_ytd := 17000,
        standard_royalty := 1200, standard_is_minimum := false,
        reduced_royalty := 200, total_royalty := 1400,
        fixed_fee := 45, national_accounts := 60,
        national_brand_fund := 300, national_brand_capped := false,
        national_brand_remaining := round2 (get_national_brand_fund_cap year - 12000),
        national_brand_annual_cap := get_national_brand_fund_cap year,
        national_brand_reduced := 12.5, total_fees := 417.5,
        grand_total_payable := 1817.5 } := by
    have e1200 : round2 (1200 : ℚ) = 1200 := by
      rw [round2_eq_down 1200 120000 (by norm_num) (by norm_num)]
      norm_num
    unfold calculate_payment_summary
    rw [h1, h2]
    norm_num [C3_totals, zeroEntry, estd, estd2, ered, ebrand, eacc, eredb, e1200]
  rw [hps]
  norm_num

/-- A ClassSales document extracting to exactly the C3 scenario totals. -/
def C3doc : RvcrDoc :=
  { columns := ["Total Commercial - Water", "Total Residential - Water",
                "Total Commercial - Subcontract"],
    rows := [⟨"Section", "GrandTotal", [⟨"10000"⟩, ⟨"2000"⟩, ⟨"5000"⟩]⟩] }

theorem C3_end_to_end_witness :
    extract_category_totals C3doc = C3_totals ∧
    ((calculate_payment_summary C3doc C3doc 2025).standard_rate_this_month = 12000 ∧
     (calculate_payment_summary C3doc C3doc 2025).standard_royalty = 1200.00 ∧
     (calculate_payment_summary C3doc C3doc 2025).fixed_fee = 45 ∧
     (calculate_payment_summary C3doc C3doc 2025).reduced_rate_this_month = 5000 ∧
     (calculate_payment_summary C3doc C3doc 2025).reduced_royalty = 200.00 ∧
     (calculate_payment_summary C3doc C3doc 2025).national_accounts = 60.00 ∧
     (calculate_payment_summary C3doc C3doc 2025).national_brand_fund = 300.00 ∧
     (calculate_payment_summary C3doc C3doc 2025).national_brand_capped = false ∧
     (calculate_payment_summary C3doc C3doc 2025).national_brand_reduced = 12.50 ∧
     (calculate_payment_summary C3doc C3doc 2025).total_fees = 417.50 ∧
     (calculate_payment_summary C3doc C3doc 2025).grand_total_payable = 1817.50) := by
  have h0 : extract_category_totals C3doc =
      { water := ⟨10000, 2000, (10000 : ℚ) + 2000⟩, fire := zeroEntry,
        mold_bio := zeroEntry, other := zeroEntry,
        subcontract := ⟨5000, 0, (5000 : ℚ) + 0⟩, reconstruction := zeroEntry } := rfl
  have hext : extract_category_totals C3doc = C3_totals := by
    rw [h0]
    norm_num [C3_totals, zeroEntry]
  exact ⟨hext, C3_end_to_end C3doc C3doc 2025 hext hext⟩

/-! ### The report tree walker (`extract_totals_from_json`)

A QuickBooks row carries a `type`, optional `Header.ColData` and
`ColData` and `Summary.ColData` cell lists (`Option` distinguishes a
missing key from an empty list, which the `'Summary' not in row` test
makes observable), and nested `Rows.Row` children (a missing `Rows` key
behaves exactly like an empty list). -/

inductive QRow where
  | mk (rtype : String) (header : Option (List ColData)) (colData : Option (List ColData))
       (rows : List QRow) (summary : Option (List ColData))

structure QDoc where
  rows : List QRow

def noiseLabels : List String := ["Interest & Credit Card Fees", "SD - Excise Tax"]

/-- `col_data[-1].get('value', '0.00')`. -/
def lastValue (cd : List ColData) : String :=
  match cd.getLast? with
  | some c => c.value
  | none => "0.00"

/-- `f"{parent_path}::{name}" if parent_path else name`. -/
def joinPath (p name : String) : String := if p = "" then name else p ++ "::" ++ name

/-- The `DATA::`-tagged full-path key of a data row. -/
def dataKey (p item : String) : String := "DATA::" ++ joinPath p item

/-- Section name: `Header.ColData[0].value.strip()` when present. -/
def sectionName (header : Option (List ColData)) : String :=
  match header with
  | some (c :: _) => pyStrip c.value
  | _ => ""

/-- Header-level aggregate: `Header.ColData[-1].value` as currency. -/
def sectionHeaderValue (header : Option (List ColData)) : ℚ :=
  match header with
  | some (c :: cs) => format_currency (lastValue (c :: cs))
  | _ => 0

/-- The single `HEADER::` write of a section (only when the value is
non-zero and the section is not at the root). -/
def headerWrites (parentPath currentPath : String) (hv : ℚ) : List (String × ℚ) :=
  if hv ≠ 0 ∧ parentPath ≠ "" then [("HEADER::" ++ currentPath, hv)] else []

/-- The single bare-label write of a `Summary` (skipped when the label
strips to empty). -/
def summaryWrites (summary : Option (List ColData)) : List (String × ℚ) :=
  match summary with
  | some (c :: cs) =>
    if pyStrip c.value = "" then []
    else [(pyStrip c.value, format_currency (lastValue (c :: cs)))]
  | _ => []

/-- The single `DATA::` write of a data row (skipped for empty names and
the two noise labels). -/
def dataWrites (parentPath : String) (colData : Option (List ColData)) : List (String × ℚ) :=
  match colData with
  | some (c :: cs) =>
    if pyStrip c.value ≠ "" ∧ pyStrip c.value ∉ noiseLabels then
      [(dataKey parentPath (pyStrip c.value), format_currency (lastValue (c :: cs)))]
    else []
  | _ => []

/-- Apply a sequence of dict assignments in order. -/
def applyWrites (t : List (String × ℚ)) (ws : List (String × ℚ)) : List (String × ℚ) :=
  ws.foldl (fun acc kv => dictSet acc kv.1 kv.2) t

mutual

/-- `process_row`: Section rows write their header-level aggregate, recurse
with the extended path, then write their Summary total under its bare
label; Data rows (explicit or implicit) write one path-qualified `DATA::`
entry; untyped legacy rows write their Summary and recurse with the
unchanged path. -/
def processRow (r : QRow) (parentPath : String) (t : List (String × ℚ)) :
    List (String × ℚ) :=
  match r with
  | .mk rtype header colData rows summary =>
    if rtype = "Section" then
      applyWrites
        (processRows rows (joinPath parentPath (sectionName header))
          (applyWrites t (headerWrites parentPath
            (joinPath parentPath (sectionName header)) (sectionHeaderValue header))))
        (summaryWrites summary)
    else if rtype = "Data" ∨ (colData.isSome ∧ summary.isNone ∧ header.isNone) then
      applyWrites t (dataWrites parentPath colData)
    else
      processRows rows parentPath (applyWrites t (summaryWrites summary))

def processRows (rs : List QRow) (parentPath : String) (t : List (String × ℚ)) :
    List (String × ℚ) :=
  match rs with
  | [] => t
  | r :: rest => processRows rest parentPath (processRow r parentPath t)

end

def extract_totals_from_json (doc : QDoc) : List (String × ℚ) :=
  processRows doc.rows "" []

mutual

/-- The write trace of one row, in execution order. -/
def rowWrites (r : QRow) (parentPath : String) : List (String × ℚ) :=
  match r with
  | .mk rtype header colData rows summary =>
    if rtype = "Section" then
      headerWrites parentPath (joinPath parentPath (sectionName header))
          (sectionHeaderValue header)
        ++ rowsWrites rows (joinPath parentPath (sectionName header))
        ++ summaryWrites summary
    else if rtype = "Data" ∨ (colData.isSome ∧ summary.isNone ∧ header.isNone) then
      dataWrites parentPath colData
    else
      summaryWrites summary ++ rowsWrites rows parentPath

def rowsWrites (rs : List QRow) (parentPath : String) : List (String × ℚ) :=
  match rs with
  | [] => []
  | r :: rest => rowWrites r parentPath ++ rowsWrites rest parentPath

end

theorem applyWrites_append (t a b : List (String × ℚ)) :
    applyWrites t (a ++ b) = applyWrites (applyWrites t a) b :=
  List.foldl_append _ _ _ _

mutual

theorem processRow_eq_applyWrites :
    ∀ (r : QRow) (p : String) (t : List (String × ℚ)),
      processRow r p t = applyWrites t (rowWrites r p)
  | .mk rtype header colData rows summary, p, t => by
    rw [processRow, rowWrites]
    by_cases hs : rtype = "Section"
    · rw [if_pos hs, if_pos hs, applyWrites_append, applyWrites_append,
        processRows_eq_applyWrites rows]
    · rw [if_neg hs, if_neg hs]
      by_cases hd : rtype = "Data" ∨ (colData.isSome ∧ summary.isNone ∧ header.isNone)
      · rw [if_pos hd, if_pos hd]
      · rw [if_neg hd, if_neg hd, applyWrites_append,
          processRows_eq_applyWrites rows]

theorem processRows_eq_applyWrites :
    ∀ (rs : List QRow) (p : String) (t : List (String × ℚ)),
      processRows rs p t = applyWrites t (rowsWrites rs p)
  | [], _, _ => rfl
  | r :: rest, p, t => by
    rw [processRows, rowsWrites, applyWrites_append,
      processRow_eq_applyWrites r, processRows_eq_applyWrites rest]

end

/-! ### Dict lemmas and the path-qualified key invariant -/

theorem dictGet_dictSet_self {α : Type} (m : List (String × α)) (k : String) (v : α) :
    dictGet (dictSet m k v) k = some v := by
  induction m with
  | nil => simp [dictSet, dictGet]
  | cons kv tl ih =>
    rw [dictSet]
    by_cases h : kv.1 = k
    · rw [if_pos h, dictGet, if_pos rfl]
    · rw [if_neg h, dictGet, if_neg h]
      exact ih

theorem dictGet_dictSet_ne {α : Type} (m : List (String × α)) (k k' : String) (v : α)
    (h : k' ≠ k) : dictGet (dictSet m k' v) k = dictGet m k := by
  induction m with
  | nil => simp [dictSet, dictGet, h]
  | cons kv tl ih =>
    rw [dictSet]
    by_cases hh : kv.1 = k'
    · have hk : kv.1 ≠ k := by rw [hh]; exact h
      rw [if_pos hh, dictGet, if_neg h, dictGet, if_neg hk]
    · rw [if_neg hh, dictGet, dictGet]
      by_cases hk : kv.1 = k
      · rw [if_pos hk, if_pos hk]
      · rw [if_neg hk, if_neg hk]
        exact ih

/-- How many times the trace writes a key. -/
def countKey (ws : List (String × ℚ)) (k : String) : Nat :=
  (ws.filter (fun kv => decide (kv.1 = k))).length

theorem countKey_nil (k : String) : countKey [] k = 0 := rfl

theorem countKey_cons (kv : String × ℚ) (ws : List (String × ℚ)) (k : String) :
    countKey (kv :: ws) k = (if kv.1 = k then 1 else 0) + countKey ws k := by
  unfold countKey
  rw [List.filter_cons]
  by_cases h : kv.1 = k <;> simp [h, Nat.add_comm]

theorem countKey_pos_of_mem {ws : List (String × ℚ)} {k : String} {v : ℚ}
    (h : (k, v) ∈ ws) : 0 < countKey ws k := by
  induction ws with
  | nil => simp at h
  | cons hd tl ih =>
    rw [countKey_cons]
    rcases List.mem_cons.mp h with h1 | h1
    · rw [← h1]
      simp
    · have := ih h1
      omega

theorem dictGet_applyWrites_zero :
    ∀ (ws t : List (String × ℚ)) (k : String), countKey ws k = 0 →
      dictGet (applyWrites t ws) k = dictGet t k
  | [], _, _, _ => rfl
  | hd :: tl, t, k, h => by
    rw [countKey_cons] at h
    by_cases hk : hd.1 = k
    · rw [if_pos hk] at h
      omega
    · rw [if_neg hk] at h
      show dictGet (applyWrites (dictSet t hd.1 hd.2) tl) k = dictGet t k
      rw [dictGet_applyWrites_zero tl _ k (by omega), dictGet_dictSet_ne _ _ _ _ hk]

theorem dictGet_applyWrites_unique :
    ∀ (ws t : List (String × ℚ)) (k : String) (v : ℚ), (k, v) ∈ ws →
      countKey ws k = 1 → dictGet (applyWrites t ws) k = some v
  | [], _, _, _, hmem, _ => by simp at hmem
  | hd :: tl, t, k, v, hmem, hcount => by
    rw [countKey_cons] at hcount
    by_cases hk : hd.1 = k
    · rw [if_pos hk] at hcount
      have htl0 : countKey tl k = 0 := by omega
      have hv : hd = (k, v) := by
        rcases List.mem_cons.mp hmem with h1 | h1
        · exact h1.symm
        · exact absurd (countKey_pos_of_mem h1) (by omega)
      show dictGet (applyWrites (dictSet t hd.1 hd.2) tl) k = some v
      rw [dictGet_applyWrites_zero tl _ k htl0, hv, dictGet_dictSet_self]
    · rw [if_neg hk] at hcount
      have h1 : (k, v) ∈ tl := by
        rcases List.mem_cons.mp hmem with h1 | h1
        · exact absurd (congrArg Prod.fst h1.symm) hk
        · exact h1
      show dictGet (applyWrites (dictSet t hd.1 hd.2) tl) k = some v
      exact dictGet_applyWrites_unique tl _ k v h1 (by omega)

/-- Distinct parent paths give distinct `DATA::` keys for the same item. -/
theorem dataKey_inj_path (p1 p2 item : String) (h : p1 ≠ p2) :
    dataKey p1 item ≠ dataKey p2 item := by
  intro hc
  have hdata := congrArg String.data hc
  unfold dataKey joinPath at hdata
  have hsep : ∀ a b : String, (a ++ b).data = a.data ++ b.data := String.data_append
  by_cases h1 : p1 = "" <;> by_cases h2 : p2 = ""
  · exact h (h1.trans h2.symm)
  · rw [if_pos h1, if_neg h2] at hdata
    rw [hsep, hsep, hsep, hsep] at hdata
    have := List.append_cancel_left hdata
    have hlen := congrArg List.length this
    simp [List.length_append] at hlen
    have : p2.data = [] := List.length_eq_zero.mp (by omega)
    exact h2 (String.ext this)
  · rw [if_neg h1, if_pos h2] at hdata
    rw [hsep, hsep, hsep, hsep] at hdata
    have := List.append_cancel_left hdata
    have hlen := congrArg List.length this
    simp [List.length_append] at hlen
    have : p1.data = [] := List.length_eq_zero.mp (by omega)
    exact h1 (String.ext this)
  · rw [if_neg h1, if_neg h2] at hdata
    rw [hsep, hsep, hsep, hsep, hsep, hsep] at hdata
    have hc1 := List.append_cancel_left hdata
    rw [List.append_assoc, List.append_assoc] at hc1
    have hc2 := List.append_cancel_right hc1
    exact h (String.ext hc2)

/-- C7: two `Data`-row writes with the same item name under different
parent section paths get distinct path-qualified `DATA::` keys, and when
each of those keys is written exactly once in the document's traversal
(the spec's per-triple uniqueness invariant) each key maps to its own
row's value with no cross-contamination. -/
theorem C7_distinct_data_keys (doc : QDoc) (p1 p2 item : String) (v1 v2 : ℚ)
    (hne : p1 ≠ p2)
    (h1 : (dataKey p1 item, v1) ∈ rowsWrites doc.rows "")
    (h2 : (dataKey p2 item, v2) ∈ rowsWrites doc.rows "")
    (hc1 : countKey (rowsWrites doc.rows "") (dataKey p1 item) = 1)
    (hc2 : countKey (rowsWrites doc.rows "") (dataKey p2 item) = 1) :
    dataKey p1 item ≠ dataKey p2 item ∧
    dictGet (extract_totals_from_json doc) (dataKey p1 item) = some v1 ∧
    dictGet (extract_totals_from_json doc) (dataKey p2 item) = some v2 := by
  refine ⟨dataKey_inj_path p1 p2 item hne, ?_, ?_⟩
  · rw [extract_totals_from_json, processRows_eq_applyWrites]
    exact dictGet_applyWrites_unique _ [] _ v1 h1 hc1
  · rw [extract_totals_from_json, processRows_eq_applyWrites]
    exact dictGet_applyWrites_unique _ [] _ v2 h2 hc2

/-- Two sections `A` and `B`, each holding a `Data` row named `x`. -/
def C7doc : QDoc :=
  ⟨[QRow.mk "Section" (some [⟨"A"⟩]) none
      [QRow.mk "Data" none (some [⟨"x"⟩, ⟨"5"⟩]) [] none] none,
    QRow.mk "Section" (some [⟨"B"⟩]) none
      [QRow.mk "Data" none (some [⟨"x"⟩, ⟨"7"⟩]) [] none] none]⟩

theorem C7_distinct_data_keys_witness :
    ("A" : String) ≠ "B" ∧
    (dataKey "A" "x", format_currency "5") ∈ rowsWrites C7doc.rows "" ∧
    (dataKey "B" "x", format_currency "7") ∈ rowsWrites C7doc.rows "" ∧
    countKey (rowsWrites C7doc.rows "") (dataKey "A" "x") = 1 ∧
    countKey (rowsWrites C7doc.rows "") (dataKey "B" "x") = 1 ∧
    (dataKey "A" "x" ≠ dataKey "B" "x" ∧
     dictGet (extract_totals_from_json C7doc) (dataKey "A" "x") =
       some (format_currency "5") ∧
     dictGet (extract_totals_from_json C7doc) (dataKey "B" "x") =
       some (format_currency "7")) := by
  have htrace : rowsWrites C7doc.rows "" =
      [(dataKey "A" "x", format_currency "5"), (dataKey "B" "x", format_currency "7")] := rfl
  have hne : ("A" : String) ≠ "B" := by decide
  have hm1 : (dataKey "A" "x", format_currency "5") ∈ rowsWrites C7doc.rows "" := by
    rw [htrace]
    exact List.mem_cons_self _ _
  have hm2 : (dataKey "B" "x", format_currency "7") ∈ rowsWrites C7doc.rows "" := by
    rw [htrace]
    exact List.mem_cons_of_mem _ (List.mem_cons_self _ _)
  have hc1 : countKey (rowsWrites C7doc.rows "") (dataKey "A" "x") = 1 := by
    rw [htrace, countKey_cons, countKey_cons, countKey_nil]
    norm_num [dataKey_inj_path "B" "A" "x" (by decide)]
  have hc2 : countKey (rowsWrites C7doc.rows "") (dataKey "B" "x") = 1 := by
    rw [htrace, countKey_cons, countKey_cons, countKey_nil]
    norm_num [dataKey_inj_path "A" "B" "x" (by decide)]
  exact ⟨hne, hm1, hm2, hc1, hc2,
    C7_distinct_data_keys C7doc "A" "B" "x" (format_currency "5") (format_currency "7")
      hne hm1 hm2 hc1 hc2⟩

/-! ### Category structures and their merge (`generate_royalty_report.py`) -/

structure Subcat where
  key : String
  name : String
  items : List String
deriving DecidableEq

structure Cat where
  key : String
  name : String
  subcategories : List Subcat
deriving DecidableEq

/-- Lexicographic comparison of char lists through `Char.toNat`. -/
def listLeB : List Char → List Char → Bool
  | [], _ => true
  | _ :: _, [] => false
  | a :: as, b :: bs =>
    if a.toNat < b.toNat then true
    else if b.toNat < a.toNat then false
    else listLeB as bs

/-- Total order on strings used to model Python's `sorted`. -/
def strLeProp (a b : String) : Prop := listLeB a.data b.data = true

instance : DecidableRel strLeProp := fun a b => Bool.decEq (listLeB a.data b.data) true

theorem charToNat_inj {a b : Char} (h : a.toNat = b.toNat) : a = b :=
  Char.ext (UInt32.ext h)

theorem listLeB_total (s t : List Char) : listLeB s t = true ∨ listLeB t s = true := by
  induction s generalizing t with
  | nil => left; rfl
  | cons a as ih =>
    cases t with
    | nil => right; rfl
    | cons b bs =>
      rw [listLeB, listLeB]
      rcases Nat.lt_trichotomy a.toNat b.toNat with h | h | h
      · left
        rw [if_pos h]
      · rw [h]
        simp only [lt_irrefl, if_false]
        exact ih bs
      · right
        rw [if_pos h]

theorem listLeB_trans (s t u : List Char) (h1 : listLeB s t = true)
    (h2 : listLeB t u = true) : listLeB s u = true := by
  induction s generalizing t u with
  | nil => rfl
  | cons a as ih =>
    cases t with
    | nil => exact absurd h1 (by simp [listLeB])
    | cons b bs =>
      cases u with
      | nil => exact absurd h2 (by simp [listLeB])
      | cons c cs =>
        rw [listLeB] at h1 h2 ⊢
        by_cases hab1 : a.toNat < b.toNat
        · by_cases hbc1 : b.toNat < c.toNat
          · rw [if_pos (by omega)]
          · by_cases hbc2 : c.toNat < b.toNat
            · rw [if_neg hbc1, if_pos hbc2] at h2
              exact absurd h2 (by simp)
            · rw [if_pos (by omega)]
        · by_cases hab2 : b.toNat < a.toNat
          · rw [if_neg hab1, if_pos hab2] at h1
            exact absurd h1 (by simp)
          · rw [if_neg hab1, if_neg hab2] at h1
            by_cases hbc1 : b.toNat < c.toNat
            · rw [if_pos (by omega)]
            · by_cases hbc2 : c.toNat < b.toNat
              · rw [if_neg hbc1, if_pos hbc2] at h2
                exact absurd h2 (by simp)
              · rw [if_neg hbc1, if_neg hbc2] at h2
                rw [if_neg (by omega), if_neg (by omega)]
                exact ih bs cs h1 h2

theorem listLeB_antisymm (s t : List Char) (h1 : listLeB s t = true)
    (h2 : listLeB t s = true) : s = t := by
  induction s generalizing t with
  | nil =>
    cases t with
    | nil => rfl
    | cons b bs => exact absurd h2 (by simp [listLeB])
  | cons a as ih =>
    cases t with
    | nil => exact absurd h1 (by simp [listLeB])
    | cons b bs =>
      rw [listLeB] at h1 h2
      rcases Nat.lt_trichotomy a.toNat b.toNat with hab | hab | hab
      · rw [if_neg (by omega), if_pos hab] at h2
        exact absurd h2 (by simp)
      · rw [if_neg (by omega), if_neg (by omega)] at h1 h2
        rw [charToNat_inj hab, ih bs h1 h2]
      · rw [if_neg (by omega), if_pos hab] at h1
        exact absurd h1 (by simp)

instance : IsTotal String strLeProp :=
  ⟨fun a b => listLeB_total a.data b.data⟩

instance : IsTrans String strLeProp :=
  ⟨fun a b c => listLeB_trans a.data b.data c.data⟩

instance : IsAntisymm String strLeProp :=
  ⟨fun a b h1 h2 => String.ext (listLeB_antisymm a.data b.data h1 h2)⟩

/-- Python `sorted` over strings. -/
def sortStr (l : List String) : List String := List.insertionSort strLeProp l

/-- Python set union: keep the old elements, append the new ones not yet
present (canonical order is imposed by the final `sorted`). -/
def setUnion (old new : List String) : List String :=
  new.foldl (fun acc x => if x ∈ acc then acc else acc ++ [x]) old

/-- One subcategory bucket of the merge dict. -/
structure SubAcc where
  key : String
  name : String
  items : List String
deriving DecidableEq

/-- One category bucket of the merge dict. -/
structure CatAcc where
  key : String
  name : String
  subs : List (String × SubAcc)
deriving DecidableEq

def modifyVal {α : Type} : List (String × α) → String → (α → α) → List (String × α)
  | [], _, _ => []
  | kv :: rest, k, f => if kv.1 = k then (kv.1, f kv.2) :: rest else kv :: modifyVal rest k f

/-- Merge one subcategory into a category bucket's `subcategories` dict. -/
def addSub (subs : List (String × SubAcc)) (s : Subcat) : List (String × SubAcc) :=
  match dictGet subs s.key with
  | none => subs ++ [(s.key, ⟨s.key, s.name, setUnion [] s.items⟩)]
  | some _ => modifyVal subs s.key (fun sa => ⟨sa.key, sa.name, setUnion sa.items s.items⟩)

/-- Merge one category of `struct1 + struct2` into the merge dict. -/
def addCat (m : List (String × CatAcc)) (c : Cat) : List (String × CatAcc) :=
  modifyVal
    (match dictGet m c.key with
     | none => m ++ [(c.key, ⟨c.key, c.name, []⟩)]
     | some _ => m)
    c.key (fun ca => ⟨ca.key, ca.name, c.subcategories.foldl addSub ca.subs⟩)

def mergeDict (m : List (String × CatAcc)) (cats : List Cat) : List (String × CatAcc) :=
  cats.foldl addCat m

def keysOf {α : Type} (m : List (String × α)) : List String := m.map Prod.fst

/-- One output subcategory: its items are `sorted(list(set))`. -/
def outSubOf (subs : List (String × SubAcc)) (sk : String) : Subcat :=
  match dictGet subs sk with
  | some sa => ⟨sa.key, sa.name, sortStr sa.items⟩
  | none => ⟨sk, "", []⟩

/-- One output category: subcategories in sorted key order.  (The `none`
fallbacks are unreachable: `toOutput` only looks up its own keys.) -/
def outCatOf (m : List (String × CatAcc)) (k : String) : Cat :=
  match dictGet m k with
  | some ca => ⟨ca.key, ca.name, (sortStr (keysOf ca.subs)).map (outSubOf ca.subs)⟩
  | none => ⟨k, "", []⟩

/-- Convert the merge dict back to the sorted list format. -/
def toOutput (m : List (String × CatAcc)) : List Cat :=
  (sortStr (keysOf m)).map (outCatOf m)

def merge_category_structures (struct1 struct2 : List Cat) : List Cat :=
  toOutput (mergeDict [] (struct1 ++ struct2))

/-! ### `extract_category_structure` -/

/-- The `type == 'Data' or implicit-data` item name of a row, when the row
is a data row whose stripped name is neither empty nor a noise label. -/
def dataItemOf : QRow → Option String
  | .mk rtype header colData _ summary =>
    if rtype = "Data" ∨ (colData.isSome ∧ summary.isNone ∧ header.isNone) then
      match colData with
      | some (c :: _) =>
        if pyStrip c.value ≠ "" ∧ pyStrip c.value ∉ noiseLabels then
          some (pyStrip c.value)
        else none
      | _ => none
    else none

def get_data_items (rows : List QRow) : List String := rows.filterMap dataItemOf

/-- One subcategory of `extract_category_structure`: a non-`Total`,
non-empty `Section` with at least one data item. -/
def extractSubOf : QRow → Option Subcat
  | .mk srtype sheader _ srows _ =>
    if srtype = "Section" then
      if sectionName sheader = "" ∨ strStartsWith (sectionName sheader) "Total" then none
      else if get_data_items srows = [] then none
      else some ⟨sectionName sheader, "   " ++ sectionName sheader, get_data_items srows⟩
    else none

/-- `extract_category_structure`: top-level non-noise, non-`Total`
`Section` rows with at least one surviving subcategory. -/
def extract_category_structure (doc : QDoc) : List Cat :=
  doc.rows.filterMap (fun r =>
    match r with
    | .mk rtype header _ rows _ =>
      if rtype = "Section" then
        if sectionName header = "" ∨ sectionName header ∈ noiseLabels then none
        else if strStartsWith (sectionName header) "Total" then none
        else if rows.filterMap extractSubOf = [] then none
        else some ⟨sectionName header, sectionName header, rows.filterMap extractSubOf⟩
      else none)

/-! ### Observables of the merge dict and of input structures -/

/-- The subcategory dict stored under category key `k` (empty when absent). -/
def subsAt (m : List (String × CatAcc)) (k : String) : List (String × SubAcc) :=
  match dictGet m k with
  | some ca => ca.subs
  | none => []

def nameAt (m : List (String × CatAcc)) (k : String) : Option String :=
  (dictGet m k).map CatAcc.name

def subNameAt (m : List (String × CatAcc)) (k sk : String) : Option String :=
  (dictGet (subsAt m k) sk).map SubAcc.name

def itemsAt (m : List (String × CatAcc)) (k sk : String) : List String :=
  match dictGet (subsAt m k) sk with
  | some sa => sa.items
  | none => []

/-- First-occurrence category name in an input structure list. -/
def firstCatName (l : List Cat) (k : String) : Option String :=
  (l.find? (fun c => decide (c.key = k))).map Cat.name

/-- All subcategory entries of the categories keyed `k`, in order. -/
def subsConcat (l : List Cat) (k : String) : List Subcat :=
  (l.filter (fun c => decide (c.key = k))).flatMap Cat.subcategories

def firstSubName (l : List Cat) (k sk : String) : Option String :=
  ((subsConcat l k).find? (fun s => decide (s.key = sk))).map Subcat.name

/-- The input structure has an item `x` under `(k, sk)`. -/
def inputHasItem (l : List Cat) (k sk x : String) : Prop :=
  ∃ s ∈ subsConcat l k, s.key = sk ∧ x ∈ s.items

/-- Output-format lookup of the `(k, sk)` item list. -/
def itemsOut (l : List Cat) (k sk : String) : Option (List String) :=
  match l.find? (fun c => decide (c.key = k)) with
  | none => none
  | some c =>
    match c.subcategories.find? (fun s => decide (s.key = sk)) with
    | none => none
    | some s => some s.items

/-! ### Basic dict lemmas -/

theorem dictGet_append_single {α : Type} (m : List (String × α)) (k0 : String) (v0 : α)
    (k : String) :
    dictGet (m ++ [(k0, v0)]) k =
      (dictGet m k).or (if k0 = k then some v0 else none) := by
  induction m with
  | nil => simp [dictGet]
  | cons kv tl ih =>
    rw [List.cons_append, dictGet, dictGet]
    by_cases h : kv.1 = k
    · rw [if_pos h, if_pos h, Option.or]
    · rw [if_neg h, if_neg h]
      exact ih

theorem dictGet_modifyVal {α : Type} (m : List (String × α)) (k0 : String) (f : α → α)
    (k : String) :
    dictGet (modifyVal m k0 f) k =
      if k0 = k then (dictGet m k).map f else dictGet m k := by
  induction m with
  | nil => by_cases h : k0 = k <;> simp [modifyVal, dictGet, h]
  | cons kv tl ih =>
    rw [modifyVal]
    by_cases h0 : kv.1 = k0
    · by_cases hk : k0 = k
      · have hkv : kv.1 = k := h0.trans hk
        rw [if_pos h0, dictGet, dictGet, if_pos hkv, if_pos hkv, if_pos hk, Option.map]
      · have hkv : kv.1 ≠ k := by rw [h0]; exact hk
        rw [if_pos h0, dictGet, dictGet, if_neg hkv, if_neg hkv, if_neg hk]
    · rw [if_neg h0, dictGet, dictGet]
      by_cases hk : kv.1 = k
      · rw [if_pos hk, if_pos hk]
        by_cases hk0 : k0 = k
        · exact absurd (hk0 ▸ hk) h0
        · rw [if_neg hk0]
      · rw [if_neg hk, if_neg hk]
        exact ih

theorem keysOf_append_single {α : Type} (m : List (String × α)) (k0 : String) (v0 : α) :
    keysOf (m ++ [(k0, v0)]) = keysOf m ++ [k0] := by
  simp [keysOf]

theorem keysOf_modifyVal {α : Type} (m : List (String × α)) (k0 : String) (f : α → α) :
    keysOf (modifyVal m k0 f) = keysOf m := by
  induction m with
  | nil => rfl
  | cons kv tl ih =>
    rw [modifyVal]
    by_cases h : kv.1 = k0
    · rw [if_pos h]
      rfl
    · rw [if_neg h]
      show kv.1 :: keysOf (modifyVal tl k0 f) = kv.1 :: keysOf tl
      rw [ih]

theorem dictGet_none_iff {α : Type} (m : List (String × α)) (k : String) :
    dictGet m k = none ↔ k ∉ keysOf m := by
  induction m with
  | nil => simp [dictGet, keysOf]
  | cons kv tl ih =>
    rw [dictGet, keysOf, List.map_cons]
    by_cases h : kv.1 = k
    · simp [h]
    · rw [if_neg h]
      simp only [List.mem_cons, ih]
      constructor
      · intro hn hc
        rcases hc with hc | hc
        · exact h hc.symm
        · exact hn hc
      · intro hn
        exact fun hc => hn (Or.inr hc)

theorem dictGet_isSome_iff {α : Type} (m : List (String × α)) (k : String) :
    (dictGet m k).isSome = true ↔ k ∈ keysOf m := by
  rw [Option.isSome_iff_ne_none, ne_eq, dictGet_none_iff]
  exact not_not

theorem mem_setUnion (old new : List String) (x : String) :
    x ∈ setUnion old new ↔ x ∈ old ∨ x ∈ new := by
  induction new generalizing old with
  | nil => simp [setUnion]
  | cons y ys ih =>
    show x ∈ setUnion (if y ∈ old then old else old ++ [y]) ys ↔ _
    rw [ih]
    by_cases h : y ∈ old
    · rw [if_pos h]
      have hx : x = y → x ∈ old := fun e => e ▸ h
      simp only [List.mem_cons]
      tauto
    · rw [if_neg h]
      simp only [List.mem_append, List.mem_singleton, List.mem_cons]
      tauto

theorem nodup_setUnion (old new : List String) (h : old.Nodup) :
    (setUnion old new).Nodup := by
  induction new generalizing old with
  | nil => exact h
  | cons y ys ih =>
    show (setUnion (if y ∈ old then old else old ++ [y]) ys).Nodup
    apply ih
    by_cases hm : y ∈ old
    · rw [if_pos hm]
      exact h
    · rw [if_neg hm, List.nodup_append]
      refine ⟨h, List.nodup_singleton y, ?_⟩
      intro a ha hmem
      rw [List.mem_singleton] at hmem
      exact hm (hmem ▸ ha)

/-! ### Characterizing the subcategory fold -/

def subsFold (s0 : List (String × SubAcc)) (ss : List Subcat) : List (String × SubAcc) :=
  ss.foldl addSub s0

/-- The bucket `addSub` stores under `s.key`. -/
def newSub (s0 : List (String × SubAcc)) (s : Subcat) : SubAcc :=
  match dictGet s0 s.key with
  | some sa => ⟨sa.key, sa.name, setUnion sa.items s.items⟩
  | none => ⟨s.key, s.name, setUnion [] s.items⟩

def itemsOfD : Option SubAcc → List String
  | some sa => sa.items
  | none => []

theorem dictGet_addSub (s0 : List (String × SubAcc)) (s : Subcat) (sk : String) :
    dictGet (addSub s0 s) sk =
      if s.key = sk then some (newSub s0 s) else dictGet s0 sk := by
  unfold addSub newSub
  cases hg : dictGet s0 s.key with
  | none =>
    rw [dictGet_append_single]
    by_cases hk : s.key = sk
    · rw [if_pos hk, if_pos hk, ← hk, hg]
      rfl
    · rw [if_neg hk, if_neg hk, Option.or_none]
  | some sa =>
    rw [dictGet_modifyVal]
    by_cases hk : s.key = sk
    · rw [if_pos hk, if_pos hk, ← hk, hg]
      rfl
    · rw [if_neg hk, if_neg hk]

theorem mem_keysOf_addSub (s0 : List (String × SubAcc)) (s : Subcat) (sk : String) :
    sk ∈ keysOf (addSub s0 s) ↔ sk ∈ keysOf s0 ∨ s.key = sk := by
  rw [← dictGet_isSome_iff, dictGet_addSub, ← dictGet_isSome_iff]
  by_cases hk : s.key = sk
  · simp [hk]
  · simp [hk]

theorem keys_nodup_addSub (s0 : List (String × SubAcc)) (s : Subcat)
    (h : (keysOf s0).Nodup) : (keysOf (addSub s0 s)).Nodup := by
  unfold addSub
  cases hg : dictGet s0 s.key with
  | none =>
    rw [keysOf_append_single, List.nodup_append]
    refine ⟨h, List.nodup_singleton _, ?_⟩
    intro a ha hmem
    rw [List.mem_singleton] at hmem
    subst hmem
    exact (dictGet_none_iff _ _).mp hg ha
  | some sa => rw [keysOf_modifyVal]; exact h

theorem subsFold_name (ss : List Subcat) (s0 : List (String × SubAcc)) (sk : String) :
    (dictGet (subsFold s0 ss) sk).map SubAcc.name =
      ((dictGet s0 sk).map SubAcc.name).or
        ((ss.find? (fun s => decide (s.key = sk))).map Subcat.name) := by
  induction ss generalizing s0 with
  | nil => simp [subsFold]
  | cons s rest ih =>
    show (dictGet (subsFold (addSub s0 s) rest) sk).map SubAcc.name = _
    rw [ih, dictGet_addSub]
    by_cases hk : s.key = sk
    · subst hk
      rw [if_pos rfl, List.find?_cons_of_pos _ (by simp)]
      unfold newSub
      cases hg : dictGet s0 s.key with
      | none => rfl
      | some sa => rfl
    · rw [if_neg hk, List.find?_cons_of_neg _ (by simp [hk])]

theorem subsFold_mem_keys (ss : List Subcat) (s0 : List (String × SubAcc)) (sk : String) :
    sk ∈ keysOf (subsFold s0 ss) ↔ sk ∈ keysOf s0 ∨ ∃ s ∈ ss, s.key = sk := by
  induction ss generalizing s0 with
  | nil => simp [subsFold]
  | cons s rest ih =>
    show sk ∈ keysOf (subsFold (addSub s0 s) rest) ↔ _
    rw [ih, mem_keysOf_addSub]
    simp only [List.mem_cons]
    constructor
    · rintro ((h | h) | ⟨s', hs', hk⟩)
      · exact Or.inl h
      · exact Or.inr ⟨s, Or.inl rfl, h⟩
      · exact Or.inr ⟨s', Or.inr hs', hk⟩
    · rintro (h | ⟨s', hs' | hs', hk⟩)
      · exact Or.inl (Or.inl h)
      · exact Or.inl (Or.inr (hs' ▸ hk))
      · exact Or.inr ⟨s', hs', hk⟩

theorem subsFold_items_mem (ss : List Subcat) (s0 : List (String × SubAcc))
    (sk x : String) :
    x ∈ itemsOfD (dictGet (subsFold s0 ss) sk) ↔
      x ∈ itemsOfD (dictGet s0 sk) ∨ ∃ s ∈ ss, s.key = sk ∧ x ∈ s.items := by
  induction ss generalizing s0 with
  | nil => simp [subsFold]
  | cons s rest ih =>
    show x ∈ itemsOfD (dictGet (subsFold (addSub s0 s) rest) sk) ↔ _
    rw [ih, dictGet_addSub]
    by_cases hk : s.key = sk
    · rw [if_pos hk]
      have hnew : itemsOfD (some (newSub s0 s)) = setUnion (itemsOfD (dictGet s0 sk)) s.items := by
        unfold newSub
        rw [← hk]
        cases hg : dictGet s0 s.key <;> rfl
      rw [hnew, mem_setUnion]
      simp only [List.mem_cons]
      constructor
      · rintro ((h | h) | ⟨s', hs', hk', hx⟩)
        · exact Or.inl h
        · exact Or.inr ⟨s, Or.inl rfl, hk, h⟩
        · exact Or.inr ⟨s', Or.inr hs', hk', hx⟩
      · rintro (h | ⟨s', hs' | hs', hk', hx⟩)
        · exact Or.inl (Or.inl h)
        · exact Or.inl (Or.inr (hs' ▸ hx))
        · exact Or.inr ⟨s', hs', hk', hx⟩
    · rw [if_neg hk]
      simp only [List.mem_cons]
      constructor
      · rintro (h | ⟨s', hs', hk', hx⟩)
        · exact Or.inl h
        · exact Or.inr ⟨s', Or.inr hs', hk', hx⟩
      · rintro (h | ⟨s', hs' | hs', hk', hx⟩)
        · exact Or.inl h
        · exact absurd (hs' ▸ hk') hk
        · exact Or.inr ⟨s', hs', hk', hx⟩

theorem subsFold_keyfield (ss : List Subcat) (s0 : List (String × SubAcc))
    (h : ∀ sk sa, dictGet s0 sk = some sa → sa.key = sk) :
    ∀ sk sa, dictGet (subsFold s0 ss) sk = some sa → sa.key = sk := by
  induction ss generalizing s0 with
  | nil => exact h
  | cons s rest ih =>
    show ∀ sk sa, dictGet (subsFold (addSub s0 s) rest) sk = some sa → sa.key = sk
    apply ih
    intro sk sa hget
    rw [dictGet_addSub] at hget
    by_cases hk : s.key = sk
    · rw [if_pos hk] at hget
      have := hget.symm
      cases this
      unfold newSub
      cases hg : dictGet s0 s.key with
      | none => simp only [hg]; exact hk
      | some sa0 => simp only [hg]; exact (h _ _ hg).trans hk
    · rw [if_neg hk] at hget
      exact h _ _ hget

theorem subsFold_items_nodup (ss : List Subcat) (s0 : List (String × SubAcc))
    (h : ∀ sk sa, dictGet s0 sk = some sa → sa.items.Nodup) :
    ∀ sk sa, dictGet (subsFold s0 ss) sk = some sa → sa.items.Nodup := by
  induction ss generalizing s0 with
  | nil => exact h
  | cons s rest ih =>
    show ∀ sk sa, dictGet (subsFold (addSub s0 s) rest) sk = some sa → sa.items.Nodup
    apply ih
    intro sk sa hget
    rw [dictGet_addSub] at hget
    by_cases hk : s.key = sk
    · rw [if_pos hk] at hget
      have := hget.symm
      cases this
      unfold newSub
      cases hg : dictGet s0 s.key with
      | none => simp only [hg]; exact nodup_setUnion _ _ (List.nodup_nil)
      | some sa0 => simp only [hg]; exact nodup_setUnion _ _ (h _ _ hg)
    · rw [if_neg hk] at hget
      exact h _ _ hget

theorem subsFold_keys_nodup (ss : List Subcat) (s0 : List (String × SubAcc))
    (h : (keysOf s0).Nodup) : (keysOf (subsFold s0 ss)).Nodup := by
  induction ss generalizing s0 with
  | nil => exact h
  | cons s rest ih =>
    show (keysOf (subsFold (addSub s0 s) rest)).Nodup
    exact ih _ (keys_nodup_addSub _ _ h)

/-! ### Characterizing the category fold -/

/-- The bucket `addCat` stores under `c.key`. -/
def newCat (m : List (String × CatAcc)) (c : Cat) : CatAcc :=
  match dictGet m c.key with
  | some ca => ⟨ca.key, ca.name, subsFold ca.subs c.subcategories⟩
  | none => ⟨c.key, c.name, subsFold [] c.subcategories⟩

theorem dictGet_addCat (m : List (String × CatAcc)) (c : Cat) (k : String) :
    dictGet (addCat m c) k = if c.key = k then some (newCat m c) else dictGet m k := by
  unfold addCat newCat
  cases hg : dictGet m c.key with
  | none =>
    show dictGet (modifyVal (m ++ [(c.key, ⟨c.key, c.name, []⟩)]) c.key
        (fun ca => ⟨ca.key, ca.name, subsFold ca.subs c.subcategories⟩)) k = _
    rw [dictGet_modifyVal]
    by_cases hk : c.key = k
    · subst hk
      rw [if_pos rfl, if_pos rfl, dictGet_append_single, hg,
        if_pos (rfl : c.key = c.key)]
      rfl
    · rw [if_neg hk, if_neg hk, dictGet_append_single, if_neg hk, Option.or_none]
  | some ca =>
    show dictGet (modifyVal m c.key
        (fun ca => ⟨ca.key, ca.name, subsFold ca.subs c.subcategories⟩)) k = _
    rw [dictGet_modifyVal]
    by_cases hk : c.key = k
    · subst hk
      rw [if_pos rfl, if_pos rfl, hg]
      rfl
    · rw [if_neg hk, if_neg hk]

theorem mem_keysOf_addCat (m : List (String × CatAcc)) (c : Cat) (k : String) :
    k ∈ keysOf (addCat m c) ↔ k ∈ keysOf m ∨ c.key = k := by
  rw [← dictGet_isSome_iff, dictGet_addCat, ← dictGet_isSome_iff]
  by_cases hk : c.key = k
  · simp [hk]
  · simp [hk]

theorem keys_nodup_addCat (m : List (String × CatAcc)) (c : Cat)
    (h : (keysOf m).Nodup) : (keysOf (addCat m c)).Nodup := by
  unfold addCat
  cases hg : dictGet m c.key with
  | none =>
    show (keysOf (modifyVal (m ++ [(c.key, ⟨c.key, c.name, []⟩)]) c.key _)).Nodup
    rw [keysOf_modifyVal, keysOf_append_single, List.nodup_append]
    refine ⟨h, List.nodup_singleton _, ?_⟩
    intro a ha hmem
    rw [List.mem_singleton] at hmem
    subst hmem
    exact (dictGet_none_iff _ _).mp hg ha
  | some ca =>
    show (keysOf (modifyVal m c.key _)).Nodup
    rw [keysOf_modifyVal]
    exact h

/-- The subcategories stored under `k` after `addCat`. -/
theorem subsAt_addCat (m : List (String × CatAcc)) (c : Cat) (k : String) :
    subsAt (addCat m c) k =
      if c.key = k then subsFold (subsAt m k) c.subcategories else subsAt m k := by
  unfold subsAt
  rw [dictGet_addCat]
  by_cases hk : c.key = k
  · subst hk
    rw [if_pos rfl, if_pos rfl]
    unfold newCat
    cases hg : dictGet m c.key with
    | none => rfl
    | some ca => rfl
  · rw [if_neg hk, if_neg hk]

theorem subsConcat_cons (c : Cat) (rest : List Cat) (k : String) :
    subsConcat (c :: rest) k =
      (if c.key = k then c.subcategories else []) ++ subsConcat rest k := by
  unfold subsConcat
  rw [List.filter_cons]
  by_cases hk : c.key = k
  · rw [if_pos (by simp [hk]), if_pos hk, List.flatMap_cons]
  · rw [if_neg (by simp [hk]), if_neg hk, List.nil_append]

/-! ### Characterizing `mergeDict` -/

theorem mergeDict_name (l : List Cat) (m : List (String × CatAcc)) (k : String) :
    nameAt (mergeDict m l) k = (nameAt m k).or (firstCatName l k) := by
  induction l generalizing m with
  | nil =>
    show nameAt m k = _
    rw [firstCatName, List.find?_nil, Option.map_none', Option.or_none]
  | cons c rest ih =>
    show nameAt (mergeDict (addCat m c) rest) k = _
    rw [ih]
    unfold nameAt firstCatName
    rw [dictGet_addCat]
    by_cases hk : c.key = k
    · subst hk
      rw [if_pos rfl, List.find?_cons_of_pos _ (by simp)]
      unfold newCat
      cases hg : dictGet m c.key with
      | none => rfl
      | some ca => rfl
    · rw [if_neg hk, List.find?_cons_of_neg _ (by simp [hk])]

theorem mergeDict_mem_keys (l : List Cat) (m : List (String × CatAcc)) (k : String) :
    k ∈ keysOf (mergeDict m l) ↔ k ∈ keysOf m ∨ ∃ c ∈ l, c.key = k := by
  induction l generalizing m with
  | nil => simp [mergeDict]
  | cons c rest ih =>
    show k ∈ keysOf (mergeDict (addCat m c) rest) ↔ _
    rw [ih, mem_keysOf_addCat]
    simp only [List.mem_cons]
    constructor
    · rintro ((h | h) | ⟨c', hc', hk⟩)
      · exact Or.inl h
      · exact Or.inr ⟨c, Or.inl rfl, h⟩
      · exact Or.inr ⟨c', Or.inr hc', hk⟩
    · rintro (h | ⟨c', hc' | hc', hk⟩)
      · exact Or.inl (Or.inl h)
      · exact Or.inl (Or.inr (hc' ▸ hk))
      · exact Or.inr ⟨c', hc', hk⟩

theorem mergeDict_subname (l : List Cat) (m : List (String × CatAcc)) (k sk : String) :
    subNameAt (mergeDict m l) k sk = (subNameAt m k sk).or (firstSubName l k sk) := by
  induction l generalizing m with
  | nil =>
    show subNameAt m k sk = _
    rw [firstSubName]
    show _ = (subNameAt m k sk).or ((List.find? _ (subsConcat [] k)).map _)
    rw [show subsConcat [] k = [] from rfl, List.find?_nil, Option.map_none', Option.or_none]
  | cons c rest ih =>
    show subNameAt (mergeDict (addCat m c) rest) k sk = _
    rw [ih]
    have hsplit : firstSubName (c :: rest) k sk =
        (if c.key = k then
          (c.subcategories.find? (fun s => decide (s.key = sk))).map Subcat.name
         else none).or (firstSubName rest k sk) := by
      unfold firstSubName
      rw [subsConcat_cons, List.find?_append]
      by_cases hk : c.key = k
      · rw [if_pos hk, if_pos hk]
        cases (c.subcategories.find? (fun s => decide (s.key = sk))) with
        | none => rfl
        | some s => rfl
      · rw [if_neg hk, if_neg hk]
        rfl
    rw [hsplit]
    have haddsub : subNameAt (addCat m c) k sk =
        (subNameAt m k sk).or (if c.key = k then
          (c.subcategories.find? (fun s => decide (s.key = sk))).map Subcat.name
         else none) := by
      unfold subNameAt
      rw [subsAt_addCat]
      by_cases hk : c.key = k
      · rw [if_pos hk, if_pos hk]
        exact subsFold_name c.subcategories (subsAt m k) sk
      · rw [if_neg hk, if_neg hk, Option.or_none]
    rw [haddsub]
    cases subNameAt m k sk with
    | none => rfl
    | some n => rfl

theorem itemsAt_eq (m : List (String × CatAcc)) (k sk : String) :
    itemsAt m k sk = itemsOfD (dictGet (subsAt m k) sk) := by
  unfold itemsAt itemsOfD
  cases dictGet (subsAt m k) sk with
  | none => rfl
  | some sa => rfl

theorem mergeDict_items (l : List Cat) (m : List (String × CatAcc)) (k sk x : String) :
    x ∈ itemsAt (mergeDict m l) k sk ↔ x ∈ itemsAt m k sk ∨ inputHasItem l k sk x := by
  induction l generalizing m with
  | nil =>
    show x ∈ itemsAt m k sk ↔ _
    unfold inputHasItem
    rw [show subsConcat [] k = [] from rfl]
    simp
  | cons c rest ih =>
    show x ∈ itemsAt (mergeDict (addCat m c) rest) k sk ↔ _
    rw [ih]
    have haddsub : x ∈ itemsAt (addCat m c) k sk ↔
        x ∈ itemsAt m k sk ∨
          (c.key = k ∧ ∃ s ∈ c.subcategories, s.key = sk ∧ x ∈ s.items) := by
      rw [itemsAt_eq, itemsAt_eq, subsAt_addCat]
      by_cases hk : c.key = k
      · rw [if_pos hk]
        rw [subsFold_items_mem]
        simp [hk]
      · rw [if_neg hk]
        simp [hk]
    rw [haddsub]
    have hdecomp : inputHasItem (c :: rest) k sk x ↔
        (c.key = k ∧ ∃ s ∈ c.subcategories, s.key = sk ∧ x ∈ s.items) ∨
          inputHasItem rest k sk x := by
      unfold inputHasItem
      simp only [subsConcat_cons, List.mem_append]
      by_cases hk : c.key = k
      · simp only [hk, eq_self_iff_true, if_true, true_and]
        constructor
        · rintro ⟨s, hs | hs, hks, hx⟩
          · exact Or.inl ⟨s, hs, hks, hx⟩
          · exact Or.inr ⟨s, hs, hks, hx⟩
        · rintro (⟨s, hs, hks, hx⟩ | ⟨s, hs, hks, hx⟩)
          · exact ⟨s, Or.inl hs, hks, hx⟩
          · exact ⟨s, Or.inr hs, hks, hx⟩
      · simp only [hk, if_false, false_and, false_or]
        constructor
        · rintro ⟨s, hs | hs, hks, hx⟩
          · simp at hs
          · exact ⟨s, hs, hks, hx⟩
        · rintro ⟨s, hs, hks, hx⟩
          exact ⟨s, Or.inr hs, hks, hx⟩
    rw [hdecomp]
    exact or_assoc

theorem mergeDict_mem_subkeys (l : List Cat) (m : List (String × CatAcc)) (k sk : String) :
    sk ∈ keysOf (subsAt (mergeDict m l) k) ↔
      sk ∈ keysOf (subsAt m k) ∨ ∃ s ∈ subsConcat l k, s.key = sk := by
  induction l generalizing m with
  | nil =>
    show sk ∈ keysOf (subsAt m k) ↔ _
    rw [show subsConcat [] k = [] from rfl]
    simp
  | cons c rest ih =>
    show sk ∈ keysOf (subsAt (mergeDict (addCat m c) rest) k) ↔ _
    rw [ih, subsAt_addCat]
    have hdecomp : (∃ s ∈ subsConcat (c :: rest) k, s.key = sk) ↔
        (c.key = k ∧ ∃ s ∈ c.subcategories, s.key = sk) ∨
          ∃ s ∈ subsConcat rest k, s.key = sk := by
      simp only [subsConcat_cons, List.mem_append]
      by_cases hk : c.key = k
      · simp only [hk, eq_self_iff_true, if_true, true_and]
        constructor
        · rintro ⟨s, hs | hs, hks⟩
          · exact Or.inl ⟨s, hs, hks⟩
          · exact Or.inr ⟨s, hs, hks⟩
        · rintro (⟨s, hs, hks⟩ | ⟨s, hs, hks⟩)
          · exact ⟨s, Or.inl hs, hks⟩
          · exact ⟨s, Or.inr hs, hks⟩
      · simp only [hk, if_false, false_and, false_or]
        constructor
        · rintro ⟨s, hs | hs, hks⟩
          · simp at hs
          · exact ⟨s, hs, hks⟩
        · rintro ⟨s, hs, hks⟩
          exact ⟨s, Or.inr hs, hks⟩
    rw [hdecomp]
    by_cases hk : c.key = k
    · rw [if_pos hk, subsFold_mem_keys]
      have htrue : (c.key = k ∧ ∃ s ∈ c.subcategories, s.key = sk) ↔
          (∃ s ∈ c.subcategories, s.key = sk) := by simp [hk]
      rw [htrue]
      exact or_assoc
    · rw [if_neg hk]
      have hfalse : (c.key = k ∧ ∃ s ∈ c.subcategories, s.key = sk) ↔ False := by
        simp [hk]
      rw [hfalse, false_or]

/-! ### Well-formedness of the merge dict -/

def WF (m : List (String × CatAcc)) : Prop :=
  (keysOf m).Nodup ∧
  (∀ k ca, dictGet m k = some ca → ca.key = k) ∧
  (∀ k ca, dictGet m k = some ca → (keysOf ca.subs).Nodup) ∧
  (∀ k ca sk sa, dictGet m k = some ca → dictGet ca.subs sk = some sa → sa.key = sk) ∧
  (∀ k ca sk sa, dictGet m k = some ca → dictGet ca.subs sk = some sa → sa.items.Nodup)

theorem WF_nil : WF [] := by
  refine ⟨List.nodup_nil, ?_, ?_, ?_, ?_⟩
  · intro k ca h
    simp [dictGet] at h
  · intro k ca h
    simp [dictGet] at h
  · intro k ca sk sa h hs
    simp [dictGet] at h
  · intro k ca sk sa h hs
    simp [dictGet] at h

theorem WF_addCat (m : List (String × CatAcc)) (c : Cat) (h : WF m) : WF (addCat m c) := by
  obtain ⟨h1, h2, h3, h4, h5⟩ := h
  have hsubsOf : ∀ k, (keysOf (subsAt m k)).Nodup := by
    intro k
    unfold subsAt
    cases hg : dictGet m k with
    | none => exact List.nodup_nil
    | some ca => exact h3 _ _ hg
  have hsubKey : ∀ k sk sa, dictGet (subsAt m k) sk = some sa → sa.key = sk := by
    intro k sk sa hget
    unfold subsAt at hget
    cases hg : dictGet m k with
    | none => rw [hg] at hget; simp [dictGet] at hget
    | some ca => rw [hg] at hget; exact h4 _ _ _ _ hg hget
  have hsubItems : ∀ k sk sa, dictGet (subsAt m k) sk = some sa → sa.items.Nodup := by
    intro k sk sa hget
    unfold subsAt at hget
    cases hg : dictGet m k with
    | none => rw [hg] at hget; simp [dictGet] at hget
    | some ca => rw [hg] at hget; exact h5 _ _ _ _ hg hget
  have hnewsubs : newCat m c = ⟨(newCat m c).key, (newCat m c).name,
      subsFold (subsAt m c.key) c.subcategories⟩ := by
    unfold newCat subsAt
    cases hg : dictGet m c.key with
    | none => rfl
    | some ca => rfl
  refine ⟨keys_nodup_addCat m c h1, ?_, ?_, ?_, ?_⟩
  · intro k ca hget
    rw [dictGet_addCat] at hget
    by_cases hk : c.key = k
    · rw [if_pos hk] at hget
      cases hget.symm
      unfold newCat
      cases hg : dictGet m c.key with
      | none => simp only [hg]; exact hk
      | some ca0 => simp only [hg]; exact (h2 _ _ hg).trans hk
    · rw [if_neg hk] at hget
      exact h2 _ _ hget
  · intro k ca hget
    rw [dictGet_addCat] at hget
    by_cases hk : c.key = k
    · rw [if_pos hk] at hget
      cases hget.symm
      rw [hnewsubs]
      exact subsFold_keys_nodup _ _ (hsubsOf c.key)
    · rw [if_neg hk] at hget
      exact h3 _ _ hget
  · intro k ca sk sa hget hgets
    rw [dictGet_addCat] at hget
    by_cases hk : c.key = k
    · rw [if_pos hk] at hget
      cases hget.symm
      rw [hnewsubs] at hgets
      exact subsFold_keyfield _ _ (hsubKey c.key) _ _ hgets
    · rw [if_neg hk] at hget
      exact h4 _ _ _ _ hget hgets
  · intro k ca sk sa hget hgets
    rw [dictGet_addCat] at hget
    by_cases hk : c.key = k
    · rw [if_pos hk] at hget
      cases hget.symm
      rw [hnewsubs] at hgets
      exact subsFold_items_nodup _ _ (hsubItems c.key) _ _ hgets
    · rw [if_neg hk] at hget
      exact h5 _ _ _ _ hget hgets

theorem WF_mergeDict (l : List Cat) (m : List (String × CatAcc)) (h : WF m) :
    WF (mergeDict m l) := by
  induction l generalizing m with
  | nil => exact h
  | cons c rest ih =>
    show WF (mergeDict (addCat m c) rest)
    exact ih _ (WF_addCat m c h)

/-! ### Reading the sorted output back -/

theorem mem_sortStr (l : List String) (x : String) : x ∈ sortStr l ↔ x ∈ l :=
  List.mem_insertionSort strLeProp

theorem sortStr_nodup (l : List String) (h : l.Nodup) : (sortStr l).Nodup :=
  ((List.perm_insertionSort strLeProp l).nodup_iff).mpr h

theorem sortStr_eq_of_set (l1 l2 : List String) (h1 : l1.Nodup) (h2 : l2.Nodup)
    (hs : ∀ x, x ∈ l1 ↔ x ∈ l2) : sortStr l1 = sortStr l2 := by
  have hperm : l1.Perm l2 := (List.perm_ext_iff_of_nodup h1 h2).mpr hs
  exact List.eq_of_perm_of_sorted
    ((List.perm_insertionSort strLeProp l1).trans
      (hperm.trans (List.perm_insertionSort strLeProp l2).symm))
    (List.sorted_insertionSort strLeProp l1)
    (List.sorted_insertionSort strLeProp l2)

theorem find?_decide_eq (l : List String) (k : String) :
    l.find? (fun a => decide (a = k)) = if k ∈ l then some k else none := by
  induction l with
  | nil => simp
  | cons a rest ih =>
    by_cases ha : a = k
    · rw [List.find?_cons_of_pos _ (by simp [ha]), ha,
        if_pos (List.mem_cons_self k rest)]
    · have hiff : (k ∈ a :: rest) ↔ k ∈ rest := by
        rw [List.mem_cons]
        constructor
        · rintro (h | h)
          · exact absurd h.symm ha
          · exact h
        · exact Or.inr
      rw [List.find?_cons_of_neg _ (by simp [ha]), ih]
      by_cases hm : k ∈ rest
      · rw [if_pos hm, if_pos (hiff.mpr hm)]
      · rw [if_neg hm, if_neg (fun hc => hm (hiff.mp hc))]

theorem filter_decide_eq (l : List String) (k : String) (h : l.Nodup) :
    l.filter (fun a => decide (a = k)) = if k ∈ l then [k] else [] := by
  induction l with
  | nil => simp
  | cons a rest ih =>
    rw [List.nodup_cons] at h
    by_cases ha : a = k
    · subst ha
      rw [List.filter_cons_of_pos (by simp), if_pos (List.mem_cons_self a rest)]
      have hrest : rest.filter (fun b => decide (b = a)) = [] := by
        rw [ih h.2, if_neg h.1]
      rw [hrest]
    · have hiff : (k ∈ a :: rest) ↔ k ∈ rest := by
        rw [List.mem_cons]
        constructor
        · rintro (hc | hc)
          · exact absurd hc.symm ha
          · exact hc
        · exact Or.inr
      rw [List.filter_cons_of_neg (by simp [ha]), ih h.2]
      by_cases hm : k ∈ rest
      · rw [if_pos hm, if_pos (hiff.mpr hm)]
      · rw [if_neg hm, if_neg (fun hc => hm (hiff.mp hc))]

theorem find?_map_key {β : Type} (l : List String) (F : String → β) (keyF : β → String)
    (hkey : ∀ a, keyF (F a) = a) (k : String) :
    (l.map F).find? (fun b => decide (keyF b = k)) =
      (l.find? (fun a => decide (a = k))).map F := by
  have hp : ((fun b => decide (keyF b = k)) ∘ F) = (fun a => decide (a = k)) := by
    funext a
    simp [Function.comp, hkey]
  rw [List.find?_map, hp]

theorem filter_map_key {β : Type} (l : List String) (F : String → β) (keyF : β → String)
    (hkey : ∀ a, keyF (F a) = a) (k : String) :
    (l.map F).filter (fun b => decide (keyF b = k)) =
      (l.filter (fun a => decide (a = k))).map F := by
  have hp : ((fun b => decide (keyF b = k)) ∘ F) = (fun a => decide (a = k)) := by
    funext a
    simp [Function.comp, hkey]
  rw [List.filter_map, hp]

theorem outCatOf_key (m : List (String × CatAcc)) (hwf : WF m) (a : String) :
    (outCatOf m a).key = a := by
  unfold outCatOf
  cases hg : dictGet m a with
  | none => rfl
  | some ca => exact hwf.2.1 _ _ hg

theorem outSubOf_key (subs : List (String × SubAcc))
    (hsub : ∀ sk sa, dictGet subs sk = some sa → sa.key = sk) (a : String) :
    (outSubOf subs a).key = a := by
  unfold outSubOf
  cases hg : dictGet subs a with
  | none => rfl
  | some sa => exact hsub _ _ hg

theorem toOutput_find (m : List (String × CatAcc)) (hwf : WF m) (k : String) :
    (toOutput m).find? (fun c => decide (c.key = k)) =
      if k ∈ keysOf m then some (outCatOf m k) else none := by
  unfold toOutput
  rw [find?_map_key _ (outCatOf m) Cat.key (outCatOf_key m hwf), find?_decide_eq]
  by_cases hm : k ∈ keysOf m
  · rw [if_pos ((mem_sortStr _ _).mpr hm), if_pos hm]
    rfl
  · rw [if_neg (fun hc => hm ((mem_sortStr _ _).mp hc)), if_neg hm]
    rfl

/-- The `subsAt`-level key-field invariant packaged from `WF`. -/
theorem WF_subsAt_keyfield (m : List (String × CatAcc)) (hwf : WF m) (k : String) :
    ∀ sk sa, dictGet (subsAt m k) sk = some sa → sa.key = sk := by
  intro sk sa hget
  unfold subsAt at hget
  cases hg : dictGet m k with
  | none => rw [hg] at hget; simp [dictGet] at hget
  | some ca => rw [hg] at hget; exact hwf.2.2.2.1 _ _ _ _ hg hget

theorem WF_subsAt_nodup (m : List (String × CatAcc)) (hwf : WF m) (k : String) :
    (keysOf (subsAt m k)).Nodup := by
  unfold subsAt
  cases hg : dictGet m k with
  | none => exact List.nodup_nil
  | some ca => exact hwf.2.2.1 _ _ hg

theorem WF_subsAt_items_nodup (m : List (String × CatAcc)) (hwf : WF m) (k : String) :
    ∀ sk sa, dictGet (subsAt m k) sk = some sa → sa.items.Nodup := by
  intro sk sa hget
  unfold subsAt at hget
  cases hg : dictGet m k with
  | none => rw [hg] at hget; simp [dictGet] at hget
  | some ca => rw [hg] at hget; exact hwf.2.2.2.2 _ _ _ _ hg hget

theorem outCatOf_subs (m : List (String × CatAcc)) (k : String) :
    (outCatOf m k).subcategories =
      (sortStr (keysOf (subsAt m k))).map (outSubOf (subsAt m k)) := by
  unfold outCatOf subsAt
  cases hg : dictGet m k with
  | none => simp [keysOf, sortStr, List.insertionSort]
  | some ca => rfl

theorem outCatOf_subs_find (m : List (String × CatAcc)) (hwf : WF m) (k sk : String) :
    (outCatOf m k).subcategories.find? (fun s => decide (s.key = sk)) =
      if sk ∈ keysOf (subsAt m k) then some (outSubOf (subsAt m k) sk) else none := by
  rw [outCatOf_subs, find?_map_key _ (outSubOf (subsAt m k)) Subcat.key
    (outSubOf_key _ (WF_subsAt_keyfield m hwf k)), find?_decide_eq]
  by_cases hm : sk ∈ keysOf (subsAt m k)
  · rw [if_pos ((mem_sortStr _ _).mpr hm), if_pos hm]
    rfl
  · rw [if_neg (fun hc => hm ((mem_sortStr _ _).mp hc)), if_neg hm]
    rfl

/-- `subsConcat` of the canonical output collapses to the single matching
category's subcategory list. -/
theorem subsConcat_toOutput (m : List (String × CatAcc)) (hwf : WF m) (k : String) :
    subsConcat (toOutput m) k =
      if k ∈ keysOf m then (outCatOf m k).subcategories else [] := by
  unfold subsConcat toOutput
  rw [filter_map_key _ (outCatOf m) Cat.key (outCatOf_key m hwf),
    filter_decide_eq _ _ (sortStr_nodup _ hwf.1)]
  by_cases hm : k ∈ keysOf m
  · rw [if_pos ((mem_sortStr _ _).mpr hm), if_pos hm]
    simp
  · rw [if_neg (fun hc => hm ((mem_sortStr _ _).mp hc)), if_neg hm]
    simp

theorem exists_key_toOutput (m : List (String × CatAcc)) (hwf : WF m) (k : String) :
    (∃ c ∈ toOutput m, c.key = k) ↔ k ∈ keysOf m := by
  unfold toOutput
  constructor
  · rintro ⟨c, hc, hck⟩
    rw [List.mem_map] at hc
    obtain ⟨a, ha, hfa⟩ := hc
    rw [← hfa, outCatOf_key m hwf a] at hck
    exact (mem_sortStr _ _).mp (hck ▸ ha)
  · intro hm
    exact ⟨outCatOf m k, List.mem_map_of_mem _ ((mem_sortStr _ _).mpr hm),
      outCatOf_key m hwf k⟩

theorem firstCatName_toOutput (m : List (String × CatAcc)) (hwf : WF m) (k : String) :
    firstCatName (toOutput m) k = nameAt m k := by
  unfold firstCatName
  rw [toOutput_find m hwf k]
  by_cases hm : k ∈ keysOf m
  · rw [if_pos hm]
    unfold outCatOf nameAt
    cases hg : dictGet m k with
    | none => exact absurd hm ((dictGet_none_iff _ _).mp hg)
    | some ca => rfl
  · rw [if_neg hm]
    unfold nameAt
    rw [(dictGet_none_iff _ _).mpr hm]
    rfl

theorem firstSubName_toOutput (m : List (String × CatAcc)) (hwf : WF m) (k sk : String) :
    firstSubName (toOutput m) k sk = subNameAt m k sk := by
  unfold firstSubName
  rw [subsConcat_toOutput m hwf k]
  by_cases hm : k ∈ keysOf m
  · rw [if_pos hm, outCatOf_subs_find m hwf k sk]
    by_cases hsm : sk ∈ keysOf (subsAt m k)
    · rw [if_pos hsm]
      unfold outSubOf subNameAt
      cases hg : dictGet (subsAt m k) sk with
      | none => exact absurd hsm ((dictGet_none_iff _ _).mp hg)
      | some sa => rfl
    · rw [if_neg hsm]
      unfold subNameAt
      rw [(dictGet_none_iff _ _).mpr hsm]
      rfl
  · rw [if_neg hm]
    rw [List.find?_nil]
    unfold subNameAt subsAt
    rw [(dictGet_none_iff _ _).mpr hm]
    rfl

theorem exists_sub_toOutput (m : List (String × CatAcc)) (hwf : WF m) (k sk : String) :
    (∃ s ∈ subsConcat (toOutput m) k, s.key = sk) ↔ sk ∈ keysOf (subsAt m k) := by
  rw [subsConcat_toOutput m hwf k]
  by_cases hm : k ∈ keysOf m
  · rw [if_pos hm, outCatOf_subs]
    constructor
    · rintro ⟨s, hs, hsk⟩
      rw [List.mem_map] at hs
      obtain ⟨a, ha, hfa⟩ := hs
      rw [← hfa, outSubOf_key _ (WF_subsAt_keyfield m hwf k) a] at hsk
      exact (mem_sortStr _ _).mp (hsk ▸ ha)
    · intro hsm
      exact ⟨outSubOf (subsAt m k) sk, List.mem_map_of_mem _ ((mem_sortStr _ _).mpr hsm),
        outSubOf_key _ (WF_subsAt_keyfield m hwf k) sk⟩
  · rw [if_neg hm]
    constructor
    · rintro ⟨s, hs, _⟩
      simp at hs
    · intro hsm
      exfalso
      unfold subsAt at hsm
      rw [(dictGet_none_iff _ _).mpr hm] at hsm
      simp [keysOf] at hsm

theorem inputHasItem_toOutput (m : List (String × CatAcc)) (hwf : WF m) (k sk x : String) :
    inputHasItem (toOutput m) k sk x ↔ x ∈ itemsAt m k sk := by
  unfold inputHasItem
  rw [subsConcat_toOutput m hwf k, itemsAt_eq]
  by_cases hm : k ∈ keysOf m
  · rw [if_pos hm, outCatOf_subs]
    constructor
    · rintro ⟨s, hs, hsk, hx⟩
      rw [List.mem_map] at hs
      obtain ⟨a, ha, hfa⟩ := hs
      rw [← hfa, outSubOf_key _ (WF_subsAt_keyfield m hwf k) a] at hsk
      subst hsk
      rw [← hfa] at hx
      unfold outSubOf at hx
      cases hg : dictGet (subsAt m k) a with
      | none =>
        rw [hg] at hx
        exact absurd hx (List.not_mem_nil x)
      | some sa =>
        rw [hg] at hx
        have hx2 : x ∈ sortStr sa.items := hx
        exact (mem_sortStr _ _).mp hx2
    · intro hx
      cases hg : dictGet (subsAt m k) sk with
      | none =>
        rw [hg] at hx
        simp [itemsOfD] at hx
      | some sa =>
        rw [hg] at hx
        refine ⟨outSubOf (subsAt m k) sk,
          List.mem_map_of_mem _ ((mem_sortStr _ _).mpr ?_),
          outSubOf_key _ (WF_subsAt_keyfield m hwf k) sk, ?_⟩
        · exact (dictGet_isSome_iff _ _).mp (by rw [hg]; rfl)
        · unfold outSubOf
          rw [hg]
          exact (mem_sortStr _ _).mpr hx
  · rw [if_neg hm]
    constructor
    · rintro ⟨s, hs, _⟩
      simp at hs
    · intro hx
      exfalso
      unfold subsAt at hx
      rw [(dictGet_none_iff _ _).mpr hm] at hx
      simp [dictGet, itemsOfD] at hx

theorem itemsOut_toOutput (m : List (String × CatAcc)) (hwf : WF m) (k sk : String) :
    itemsOut (toOutput m) k sk =
      if sk ∈ keysOf (subsAt m k) then some (sortStr (itemsAt m k sk)) else none := by
  unfold itemsOut
  rw [toOutput_find m hwf k]
  by_cases hm : k ∈ keysOf m
  · rw [if_pos hm]
    show (match (outCatOf m k).subcategories.find? (fun s => decide (s.key = sk)) with
      | none => none
      | some s => some s.items) = _
    rw [outCatOf_subs_find m hwf k sk]
    by_cases hsm : sk ∈ keysOf (subsAt m k)
    · rw [if_pos hsm, if_pos hsm]
      show some (outSubOf (subsAt m k) sk).items = _
      unfold outSubOf
      rw [itemsAt_eq]
      cases hg : dictGet (subsAt m k) sk with
      | none => exact absurd hsm ((dictGet_none_iff _ _).mp hg)
      | some sa => rfl
    · rw [if_neg hsm, if_neg hsm]
  · rw [if_neg hm]
    have hsub : ¬ sk ∈ keysOf (subsAt m k) := by
      unfold subsAt
      rw [(dictGet_none_iff _ _).mpr hm]
      simp [keysOf]
    rw [if_neg hsub]

/-! ### Append decompositions on input structures -/

theorem firstCatName_append (l1 l2 : List Cat) (k : String) :
    firstCatName (l1 ++ l2) k = (firstCatName l1 k).or (firstCatName l2 k) := by
  unfold firstCatName
  rw [List.find?_append]
  cases l1.find? (fun c => decide (c.key = k)) with
  | none => rfl
  | some c => rfl

theorem subsConcat_append (l1 l2 : List Cat) (k : String) :
    subsConcat (l1 ++ l2) k = subsConcat l1 k ++ subsConcat l2 k := by
  unfold subsConcat
  rw [List.filter_append, List.flatMap_append]

theorem firstSubName_append (l1 l2 : List Cat) (k sk : String) :
    firstSubName (l1 ++ l2) k sk =
      (firstSubName l1 k sk).or (firstSubName l2 k sk) := by
  unfold firstSubName
  rw [subsConcat_append, List.find?_append]
  cases (subsConcat l1 k).find? (fun s => decide (s.key = sk)) with
  | none => rfl
  | some s => rfl

theorem inputHasItem_append (l1 l2 : List Cat) (k sk x : String) :
    inputHasItem (l1 ++ l2) k sk x ↔ inputHasItem l1 k sk x ∨ inputHasItem l2 k sk x := by
  unfold inputHasItem
  rw [subsConcat_append]
  simp only [List.mem_append]
  constructor
  · rintro ⟨s, hs | hs, hks, hx⟩
    · exact Or.inl ⟨s, hs, hks, hx⟩
    · exact Or.inr ⟨s, hs, hks, hx⟩
  · rintro (⟨s, hs, hks, hx⟩ | ⟨s, hs, hks, hx⟩)
    · exact ⟨s, Or.inl hs, hks, hx⟩
    · exact ⟨s, Or.inr hs, hks, hx⟩

theorem exists_sub_append (l1 l2 : List Cat) (k sk : String) :
    (∃ s ∈ subsConcat (l1 ++ l2) k, s.key = sk) ↔
      (∃ s ∈ subsConcat l1 k, s.key = sk) ∨ (∃ s ∈ subsConcat l2 k, s.key = sk) := by
  rw [subsConcat_append]
  simp only [List.mem_append]
  constructor
  · rintro ⟨s, hs | hs, hks⟩
    · exact Or.inl ⟨s, hs, hks⟩
    · exact Or.inr ⟨s, hs, hks⟩
  · rintro (⟨s, hs, hks⟩ | ⟨s, hs, hks⟩)
    · exact ⟨s, Or.inl hs, hks⟩
    · exact ⟨s, Or.inr hs, hks⟩

theorem or_absorb {α : Type} (a b : Option α) : a.or (a.or b) = a.or b := by
  cases a with
  | none => rfl
  | some x => rfl

theorem exists_key_append (l1 l2 : List Cat) (k : String) :
    (∃ c ∈ l1 ++ l2, c.key = k) ↔
      (∃ c ∈ l1, c.key = k) ∨ (∃ c ∈ l2, c.key = k) := by
  simp only [List.mem_append]
  constructor
  · rintro ⟨c, hc | hc, hk⟩
    · exact Or.inl ⟨c, hc, hk⟩
    · exact Or.inr ⟨c, hc, hk⟩
  · rintro (⟨c, hc, hk⟩ | ⟨c, hc, hk⟩)
    · exact ⟨c, Or.inl hc, hk⟩
    · exact ⟨c, Or.inr hc, hk⟩

theorem itemsAt_nodup (m : List (String × CatAcc)) (hwf : WF m) (k sk : String) :
    (itemsAt m k sk).Nodup := by
  rw [itemsAt_eq]
  cases hg : dictGet (subsAt m k) sk with
  | none => exact List.nodup_nil
  | some sa => exact WF_subsAt_items_nodup m hwf k _ _ hg

/-- Two well-formed merge dicts with the same keys, names, subcategory
keys, subcategory names, and item sets produce the same sorted output. -/
theorem toOutput_congr (m1 m2 : List (String × CatAcc)) (h1 : WF m1) (h2 : WF m2)
    (hkeys : ∀ k, k ∈ keysOf m1 ↔ k ∈ keysOf m2)
    (hname : ∀ k, nameAt m1 k = nameAt m2 k)
    (hsubkeys : ∀ k sk, sk ∈ keysOf (subsAt m1 k) ↔ sk ∈ keysOf (subsAt m2 k))
    (hsubname : ∀ k sk, subNameAt m1 k sk = subNameAt m2 k sk)
    (hitems : ∀ k sk x, x ∈ itemsAt m1 k sk ↔ x ∈ itemsAt m2 k sk) :
    toOutput m1 = toOutput m2 := by
  unfold toOutput
  have hsort : sortStr (keysOf m1) = sortStr (keysOf m2) :=
    sortStr_eq_of_set _ _ h1.1 h2.1 hkeys
  rw [hsort]
  apply List.map_congr_left
  intro k hk
  have hk2 : k ∈ keysOf m2 := (mem_sortStr _ _).mp hk
  have hk1 : k ∈ keysOf m1 := (hkeys k).mpr hk2
  obtain ⟨ca1, hca1⟩ : ∃ ca, dictGet m1 k = some ca := by
    cases hg : dictGet m1 k with
    | none => exact absurd hk1 ((dictGet_none_iff _ _).mp hg)
    | some ca => exact ⟨ca, rfl⟩
  obtain ⟨ca2, hca2⟩ : ∃ ca, dictGet m2 k = some ca := by
    cases hg : dictGet m2 k with
    | none => exact absurd hk2 ((dictGet_none_iff _ _).mp hg)
    | some ca => exact ⟨ca, rfl⟩
  have hsubsAt1 : subsAt m1 k = ca1.subs := by unfold subsAt; rw [hca1]
  have hsubsAt2 : subsAt m2 k = ca2.subs := by unfold subsAt; rw [hca2]
  unfold outCatOf
  rw [hca1, hca2]
  show Cat.mk ca1.key ca1.name ((sortStr (keysOf ca1.subs)).map (outSubOf ca1.subs)) =
    Cat.mk ca2.key ca2.name ((sortStr (keysOf ca2.subs)).map (outSubOf ca2.subs))
  have hkeyf : ca1.key = ca2.key := (h1.2.1 _ _ hca1).trans (h2.2.1 _ _ hca2).symm
  have hnm : ca1.name = ca2.name := by
    have hn := hname k
    unfold nameAt at hn
    rw [hca1, hca2] at hn
    exact Option.some_injective _ hn
  have hsortsub : sortStr (keysOf ca1.subs) = sortStr (keysOf ca2.subs) := by
    apply sortStr_eq_of_set _ _ (h1.2.2.1 _ _ hca1) (h2.2.2.1 _ _ hca2)
    intro sk
    have hs := hsubkeys k sk
    rw [hsubsAt1, hsubsAt2] at hs
    exact hs
  rw [hkeyf, hnm, hsortsub]
  have hmapeq : (sortStr (keysOf ca2.subs)).map (outSubOf ca1.subs) =
      (sortStr (keysOf ca2.subs)).map (outSubOf ca2.subs) := by
    apply List.map_congr_left
    intro sk hsk
    have hsk2 : sk ∈ keysOf ca2.subs := (mem_sortStr _ _).mp hsk
    have hsk1 : sk ∈ keysOf ca1.subs := by
      have hs := hsubkeys k sk
      rw [hsubsAt1, hsubsAt2] at hs
      exact hs.mpr hsk2
    obtain ⟨sa1, hsa1⟩ : ∃ sa, dictGet ca1.subs sk = some sa := by
      cases hg : dictGet ca1.subs sk with
      | none => exact absurd hsk1 ((dictGet_none_iff _ _).mp hg)
      | some sa => exact ⟨sa, rfl⟩
    obtain ⟨sa2, hsa2⟩ : ∃ sa, dictGet ca2.subs sk = some sa := by
      cases hg : dictGet ca2.subs sk with
      | none => exact absurd hsk2 ((dictGet_none_iff _ _).mp hg)
      | some sa => exact ⟨sa, rfl⟩
    unfold outSubOf
    rw [hsa1, hsa2]
    show Subcat.mk sa1.key sa1.name (sortStr sa1.items) =
      Subcat.mk sa2.key sa2.name (sortStr sa2.items)
    have hskeyf : sa1.key = sa2.key :=
      (h1.2.2.2.1 _ _ _ _ hca1 hsa1).trans (h2.2.2.2.1 _ _ _ _ hca2 hsa2).symm
    have hsnm : sa1.name = sa2.name := by
      have hn := hsubname k sk
      unfold subNameAt at hn
      rw [hsubsAt1, hsubsAt2, hsa1, hsa2] at hn
      exact Option.some_injective _ hn
    have hsit : sortStr sa1.items = sortStr sa2.items := by
      apply sortStr_eq_of_set _ _ (h1.2.2.2.2 _ _ _ _ hca1 hsa1)
        (h2.2.2.2.2 _ _ _ _ hca2 hsa2)
      intro x
      have hi := hitems k sk x
      rw [itemsAt_eq, itemsAt_eq, hsubsAt1, hsubsAt2, hsa1, hsa2] at hi
      exact hi
    rw [hskeyf, hsnm, hsit]
  rw [hmapeq]

/-! ### The three merge properties -/

theorem merge_idempotent (A B : List Cat) :
    merge_category_structures A (merge_category_structures A B) =
      merge_category_structures A B := by
  unfold merge_category_structures
  have hwfD : WF (mergeDict [] (A ++ B)) := WF_mergeDict _ _ WF_nil
  have hwfM : WF (mergeDict [] (A ++ toOutput (mergeDict [] (A ++ B)))) :=
    WF_mergeDict _ _ WF_nil
  apply toOutput_congr _ _ hwfM hwfD
  · intro k
    rw [mergeDict_mem_keys, mergeDict_mem_keys, exists_key_append, exists_key_append,
      exists_key_toOutput _ hwfD, mergeDict_mem_keys, exists_key_append]
    have hbase : k ∈ keysOf ([] : List (String × CatAcc)) ↔ False := by
      simp [keysOf]
    simp only [hbase, false_or]
    rw [← or_assoc, or_self]
  · intro k
    rw [mergeDict_name, mergeDict_name]
    show (firstCatName (A ++ toOutput (mergeDict [] (A ++ B))) k) =
      (firstCatName (A ++ B) k)
    rw [firstCatName_append, firstCatName_append, firstCatName_toOutput _ hwfD,
      mergeDict_name, firstCatName_append]
    show (firstCatName A k).or ((firstCatName A k).or (firstCatName B k)) =
      (firstCatName A k).or (firstCatName B k)
    rw [or_absorb]
  · intro k sk
    rw [mergeDict_mem_subkeys, mergeDict_mem_subkeys, exists_sub_append, exists_sub_append,
      exists_sub_toOutput _ hwfD, mergeDict_mem_subkeys, exists_sub_append]
    have hbase : sk ∈ keysOf (subsAt ([] : List (String × CatAcc)) k) ↔ False := by
      simp [subsAt, dictGet, keysOf]
    simp only [hbase, false_or]
    rw [← or_assoc, or_self]
  · intro k sk
    rw [mergeDict_subname, mergeDict_subname]
    show (firstSubName (A ++ toOutput (mergeDict [] (A ++ B))) k sk) =
      (firstSubName (A ++ B) k sk)
    rw [firstSubName_append, firstSubName_append, firstSubName_toOutput _ hwfD,
      mergeDict_subname, firstSubName_append]
    show (firstSubName A k sk).or ((firstSubName A k sk).or (firstSubName B k sk)) =
      (firstSubName A k sk).or (firstSubName B k sk)
    rw [or_absorb]
  · intro k sk x
    rw [mergeDict_items, mergeDict_items, inputHasItem_append, inputHasItem_append,
      inputHasItem_toOutput _ hwfD, mergeDict_items, inputHasItem_append]
    have hbase : x ∈ itemsAt ([] : List (String × CatAcc)) k sk ↔ False := by
      simp [itemsAt, subsAt, dictGet]
    simp only [hbase, false_or]
    rw [← or_assoc, or_self]

theorem merge_items_comm (A B : List Cat) (k sk : String) :
    itemsOut (merge_category_structures A B) k sk =
      itemsOut (merge_category_structures B A) k sk := by
  unfold merge_category_structures
  have hwf1 : WF (mergeDict [] (A ++ B)) := WF_mergeDict _ _ WF_nil
  have hwf2 : WF (mergeDict [] (B ++ A)) := WF_mergeDict _ _ WF_nil
  rw [itemsOut_toOutput _ hwf1, itemsOut_toOutput _ hwf2]
  have hbase : sk ∈ keysOf (subsAt ([] : List (String × CatAcc)) k) ↔ False := by
    simp [subsAt, dictGet, keysOf]
  have hpres : sk ∈ keysOf (subsAt (mergeDict [] (A ++ B)) k) ↔
      sk ∈ keysOf (subsAt (mergeDict [] (B ++ A)) k) := by
    rw [mergeDict_mem_subkeys, mergeDict_mem_subkeys, exists_sub_append,
      exists_sub_append]
    simp only [hbase, false_or]
    exact or_comm
  by_cases hp : sk ∈ keysOf (subsAt (mergeDict [] (A ++ B)) k)
  · rw [if_pos hp, if_pos (hpres.mp hp)]
    have hibase : ∀ x, x ∈ itemsAt ([] : List (String × CatAcc)) k sk ↔ False := by
      intro x
      simp [itemsAt, subsAt, dictGet]
    have hset : ∀ x, x ∈ itemsAt (mergeDict [] (A ++ B)) k sk ↔
        x ∈ itemsAt (mergeDict [] (B ++ A)) k sk := by
      intro x
      rw [mergeDict_items, mergeDict_items, inputHasItem_append, inputHasItem_append]
      simp only [hibase x, false_or]
      exact or_comm
    rw [sortStr_eq_of_set _ _ (itemsAt_nodup _ hwf1 k sk) (itemsAt_nodup _ hwf2 k sk) hset]
  · rw [if_neg hp, if_neg (fun hc => hp (hpres.mpr hc))]

theorem merge_preserves_item (A B : List Cat) (k sk x : String)
    (h : inputHasItem A k sk x ∨ inputHasItem B k sk x) :
    ∃ l, itemsOut (merge_category_structures A B) k sk = some l ∧ x ∈ l := by
  unfold merge_category_structures
  have hwf : WF (mergeDict [] (A ++ B)) := WF_mergeDict _ _ WF_nil
  rw [itemsOut_toOutput _ hwf]
  have hsub : ∃ s ∈ subsConcat (A ++ B) k, s.key = sk := by
    rw [exists_sub_append]
    rcases h with h | h
    · obtain ⟨s, hs, hks, _⟩ := h
      exact Or.inl ⟨s, hs, hks⟩
    · obtain ⟨s, hs, hks, _⟩ := h
      exact Or.inr ⟨s, hs, hks⟩
  have hp : sk ∈ keysOf (subsAt (mergeDict [] (A ++ B)) k) := by
    rw [mergeDict_mem_subkeys]
    exact Or.inr hsub
  rw [if_pos hp]
  refine ⟨_, rfl, ?_⟩
  rw [mem_sortStr, mergeDict_items, inputHasItem_append]
  exact Or.inr h

/-- C6: for all category structures A, B produced by
`extract_category_structure`, `merge_category_structures` is idempotent —
Merge(A, Merge(A,B)) = Merge(A,B) — the merged item lists (looked up in the
output format) are identical regardless of argument order, and an item
present under (k, sk) in either source structure appears in the merged
result's item list for (k, sk). -/
theorem C6_merge_idempotent_order_independent (d1 d2 : QDoc) (A B : List Cat)
    (hA : A = extract_category_structure d1) (hB : B = extract_category_structure d2) :
    merge_category_structures A (merge_category_structures A B) =
      merge_category_structures A B ∧
    (∀ k sk, itemsOut (merge_category_structures A B) k sk =
      itemsOut (merge_category_structures B A) k sk) ∧
    (∀ k sk x, inputHasItem A k sk x ∨ inputHasItem B k sk x →
      ∃ l, itemsOut (merge_category_structures A B) k sk = some l ∧ x ∈ l) := by
  subst hA hB
  exact ⟨merge_idempotent _ _, fun k sk => merge_items_comm _ _ k sk,
    fun k sk x h => merge_preserves_item _ _ k sk x h⟩

/-- A document with one category section `Alpha` holding subcategory `Sub1`
with the single data item `ItemOnly1`. -/
def C6d1 : QDoc :=
  ⟨[QRow.mk "Section" (some [⟨"Alpha"⟩]) none
      [QRow.mk "Section" (some [⟨"Sub1"⟩]) none
        [QRow.mk "Data" none (some [⟨"ItemOnly1"⟩]) [] none] none] none]⟩

/-- A document with the same category and subcategory but a different
single item `ItemOnly2`. -/
def C6d2 : QDoc :=
  ⟨[QRow.mk "Section" (some [⟨"Alpha"⟩]) none
      [QRow.mk "Section" (some [⟨"Sub1"⟩]) none
        [QRow.mk "Data" none (some [⟨"ItemOnly2"⟩]) [] none] none] none]⟩

theorem C6_merge_idempotent_order_independent_witness :
    merge_category_structures (extract_category_structure C6d1)
        (merge_category_structures (extract_category_structure C6d1)
          (extract_category_structure C6d2)) =
      merge_category_structures (extract_category_structure C6d1)
        (extract_category_structure C6d2) ∧
    itemsOut (merge_category_structures (extract_category_structure C6d1)
        (extract_category_structure C6d2)) "Alpha" "Sub1" =
      itemsOut (merge_category_structures (extract_category_structure C6d2)
        (extract_category_structure C6d1)) "Alpha" "Sub1" ∧
    (∃ l, itemsOut (merge_category_structures (extract_category_structure C6d1)
        (extract_category_structure C6d2)) "Alpha" "Sub1" = some l ∧ "ItemOnly1" ∈ l) := by
  have h := C6_merge_idempotent_order_independent C6d1 C6d2
    (extract_category_structure C6d1) (extract_category_structure C6d2) rfl rfl
  have hsc : subsConcat (extract_category_structure C6d1) "Alpha" =
      [⟨"Sub1", "   Sub1", ["ItemOnly1"]⟩] := rfl
  have h1 : inputHasItem (extract_category_structure C6d1) "Alpha" "Sub1" "ItemOnly1" := by
    refine ⟨⟨"Sub1", "   Sub1", ["ItemOnly1"]⟩, ?_, rfl, ?_⟩
    · rw [hsc]
      exact List.Mem.head _
    · exact List.Mem.head _
  exact ⟨h.1, h.2.1 "Alpha" "Sub1", h.2.2 "Alpha" "Sub1" "ItemOnly1" (Or.inl h1)⟩

end Cfoworx
